import Mathlib

/-
Verification development for the PCR protection profile engine
(src/tpm2/pcr_profile.go).

The Go code is shallowly embedded as follows:

* `PCRVals` embeds `tpm2.PCRValues` (a two-level map from hash algorithm and
  PCR index to a digest) as an association list keyed by `(alg, pcr)` pairs;
  map writes are replace-or-insert (`setEntry`).
* `Instr` embeds the closed set of profile instructions; a profile is its
  instruction list (`PCRProtectionProfile.instrs`).
* `iterNext` embeds `pcrProtectionProfileIterator.next`, including the
  skipping of branch instructions with zero sub-profiles and the emission of
  end-of-branch markers when a level is exhausted.
* The compute-context arena (`EngineSt`) embeds the heap of
  `pcrProtectionProfileComputeContext` values: contexts are addressed by
  index, `parent` is an arena index, and the stack holds arena indices with
  the active branch on top.
* `run` embeds the evaluation loop of `ComputePCRValues`; it is fuel-indexed
  (one unit of fuel per call to `next`), with `ComputePCRValues` supplying a
  fuel bound derived from the instruction-tree size that is provably
  sufficient.
* The external go-tpm2 collaborators (`SelectionList`,
  `ComputePCRDigestSimple`, `PCRSelectionList.Equal`, the hash provider and
  the TPM PCR read) are modelled from the spec at their interface boundary:
  hashing is an abstract `HashModel` parameter, reading a live PCR is a
  partial function `TPMReader`, and the selection derivation returns the
  bank-major, index-ascending sorted key list.
-/

set_option maxHeartbeats 1000000

abbrev Alg := Nat

abbrev Digest := List Nat

abbrev PCRKey := Alg × Nat

/-- Modelled from the spec: the external hash/digest provider collaborator.
`size` is the algorithm's output length, `hash` its hash over a byte
sequence. -/
structure HashModel where
  size : Alg → Nat
  hash : Alg → Digest → Digest

/-- Modelled from the spec: the external measurement source (TPM PCR read),
which may fail (`none`). -/
abbrev TPMReader := Alg → Nat → Option Digest

/-- Embeds `tpm2.PCRValues`: a mapping from (algorithm, PCR index) to a
digest, represented as an association list. -/
abbrev PCRVals := List (PCRKey × Digest)

/-- Embeds one list of PCR value combinations (`pcrValuesList`). -/
abbrev PCRValsList := List PCRVals

/-- Map write `v[alg][pcr] = value`: replace the existing entry or insert a
new one. -/
def setEntry (v : PCRVals) (alg : Alg) (pcr : Nat) (value : Digest) : PCRVals :=
  if v.any (fun e => decide (e.1 = (alg, pcr))) then
    v.map (fun e => if e.1 = (alg, pcr) then ((alg, pcr), value) else e)
  else v ++ [((alg, pcr), value)]

/-- Map lookup `v[alg][pcr]`. -/
def lookupEntry (v : PCRVals) (alg : Alg) (pcr : Nat) : Option Digest :=
  match v.find? (fun e => decide (e.1 = (alg, pcr))) with
  | some e => some e.2
  | none => none

/-- One step of `pcrValuesList.extendValue` on a single value set: if no
entry exists the old value is all zeroes of the algorithm's output length,
and the entry becomes the hash of the old value concatenated with the
supplied value. -/
def extendEntry (hm : HashModel) (v : PCRVals) (alg : Alg) (pcr : Nat) (value : Digest) : PCRVals :=
  let old := match lookupEntry v alg pcr with
    | some d => d
    | none => List.replicate (hm.size alg) 0
  setEntry v alg pcr (hm.hash alg (old ++ value))

/-- Embeds `pcrValuesList.setValue`: set the PCR for all branches. -/
def setValueList (l : PCRValsList) (alg : Alg) (pcr : Nat) (value : Digest) : PCRValsList :=
  l.map (fun v => setEntry v alg pcr value)

/-- Embeds `pcrValuesList.extendValue`: extend the PCR for all branches. -/
def extendValueList (hm : HashModel) (l : PCRValsList) (alg : Alg) (pcr : Nat) (value : Digest) :
    PCRValsList :=
  l.map (fun v => extendEntry hm v alg pcr value)

/-- Embeds `pcrValuesList.copy`: rebuild every value set entry by entry.
In the pure embedding this is structurally the identity. -/
def copyList (l : PCRValsList) : PCRValsList :=
  l.map (fun v => v.map (fun e => (e.1, e.2)))

/-- Embeds the closed instruction set of `PCRProtectionProfile`.  A profile
is a `List Instr`; sub-profiles of a branch are profiles themselves. -/
inductive Instr where
  | addPCRValue (alg : Alg) (pcr : Nat) (value : Digest)
  | addPCRValueFromTPM (alg : Alg) (pcr : Nat)
  | extendPCR (alg : Alg) (pcr : Nat) (value : Digest)
  | addProfileOR (profiles : List (List Instr))

mutual

/-- Size of one instruction, counting nested sub-profile instructions and one
unit per sub-profile level. -/
def instrSize : Instr → Nat
  | .addProfileOR ps => 1 + profilesSize ps
  | _ => 1

/-- Combined size of a list of sub-profiles. -/
def profilesSize : List (List Instr) → Nat
  | [] => 0
  | p :: r => (levelSize p + 1) + profilesSize r

/-- Combined size of the instructions of one profile. -/
def levelSize : List Instr → Nat
  | [] => 0
  | i :: r => instrSize i + levelSize r

end

/-- What one call to `pcrProtectionProfileIterator.next` can return: an
instruction of the profile, or the pseudo instruction marking the end of a
branch (`pcrProtectionProfileEndProfileInstr`). -/
inductive IterOut where
  | instr (i : Instr)
  | endProfile

/-- Core of `pcrProtectionProfileIterator.next` acting on the innermost
level: returns the emitted output together with the levels to push in front
of the remaining ones.  Branch instructions with zero sub-profiles are
skipped entirely. -/
def iterNextCore : List Instr → IterOut × List (List Instr)
  | [] => (.endProfile, [])
  | i :: tl =>
    match i with
    | .addProfileOR ps =>
      if ps.isEmpty then iterNextCore tl
      else (.instr (.addProfileOR ps), ps ++ [tl])
    | _ => (.instr i, [tl])

/-- Embeds `pcrProtectionProfileIterator.next`: `none` is the
"no more instructions" panic. -/
def iterNext : List (List Instr) → Option (IterOut × List (List Instr))
  | [] => none
  | hd :: rest => some ((iterNextCore hd).1, (iterNextCore hd).2 ++ rest)

/-- Embeds `pcrProtectionProfileComputeContext`: parent reference (an arena
index, or `none` for the root) plus the value-set list of live paths. -/
structure ComputeCtx where
  parent : Option Nat
  values : PCRValsList
deriving DecidableEq

/-- Embeds the heap of compute contexts (as an arena addressed by index)
together with `pcrProtectionProfileComputeContextStack` (a list of arena
indices, top first). -/
structure EngineSt where
  arena : List ComputeCtx
  stack : List Nat
deriving DecidableEq

/-- Arena index of the context on top of the stack. -/
def topIdx (E : EngineSt) : Nat := E.stack.headD 0

/-- Read a context from the arena. -/
def getCtx (E : EngineSt) (i : Nat) : ComputeCtx := E.arena.getD i ⟨none, []⟩

/-- Apply an update to the values of the top context (used for the
`setValue` / `extendValue` instructions). -/
def updTopValues (E : EngineSt) (f : PCRValsList → PCRValsList) : EngineSt :=
  let t := topIdx E
  let c := getCtx E t
  ⟨E.arena.set t ⟨c.parent, f c.values⟩, E.stack⟩

/-- Embeds `pcrProtectionProfileComputeContextStack.handleBranches`: create
`n` children of the top context, each with an independent copy of its
value-set list, clear the top context's own list, and push the children
(first sub-profile's context on top). -/
def handleBranches (E : EngineSt) (n : Nat) : EngineSt :=
  let t := topIdx E
  let c := getCtx E t
  let base := E.arena.length
  ⟨E.arena.set t ⟨c.parent, []⟩ ++ List.replicate n ⟨some t, copyList c.values⟩,
   (List.range n).map (fun k => base + k) ++ E.stack⟩

/-- Embeds `pcrProtectionProfileComputeContextStack.finishBranch`: append the
top context's value-set list to its parent's and pop it.  The engine only
calls this when the top context is not the root. -/
def finishBranch (E : EngineSt) : EngineSt :=
  let t := topIdx E
  let c := getCtx E t
  match c.parent with
  | some p =>
    let pc := getCtx E p
    ⟨E.arena.set p ⟨pc.parent, pc.values ++ c.values⟩, E.stack.tail⟩
  | none => ⟨E.arena, E.stack.tail⟩

/-- Go error message for a missing TPM context. -/
def noTPMContextMsg (alg : Alg) (pcr : Nat) : String :=
  "cannot read current value of PCR " ++ toString pcr ++ " from bank " ++ toString alg ++
    ": no TPM context"

/-- Go error message for a failed PCR read. -/
def pcrReadErrMsg (alg : Alg) (pcr : Nat) : String :=
  "cannot read current value of PCR " ++ toString pcr ++ " from bank " ++ toString alg ++
    ": read error"

/-- Result of `ComputePCRValues`: the value sets, a returned error, a Go
panic, or exhausted fuel (never reached for the fuel bound used). -/
inductive CVResult where
  | ok (values : List PCRVals)
  | err (msg : String)
  | panicked
  | outOfFuel
deriving DecidableEq

/-- Embeds the evaluation loop of `PCRProtectionProfile.ComputePCRValues`,
consuming one unit of fuel per call to `next`. -/
def run (hm : HashModel) (tpm : Option TPMReader) :
    Nat → List (List Instr) → EngineSt → CVResult
  | 0, _, _ => .outOfFuel
  | fuel + 1, St, E =>
    match iterNext St with
    | none => .panicked
    | some (out, St') =>
      match out with
      | .instr (.addPCRValue alg pcr value) =>
        run hm tpm fuel St' (updTopValues E (fun l => setValueList l alg pcr value))
      | .instr (.addPCRValueFromTPM alg pcr) =>
        match tpm with
        | none => .err (noTPMContextMsg alg pcr)
        | some t =>
          match t alg pcr with
          | none => .err (pcrReadErrMsg alg pcr)
          | some d => run hm tpm fuel St' (updTopValues E (fun l => setValueList l alg pcr d))
      | .instr (.extendPCR alg pcr value) =>
        run hm tpm fuel St' (updTopValues E (fun l => extendValueList hm l alg pcr value))
      | .instr (.addProfileOR ps) =>
        run hm tpm fuel St' (handleBranches E ps.length)
      | .endProfile =>
        if (getCtx E (topIdx E)).parent = none then .ok ((getCtx E (topIdx E)).values)
        else run hm tpm fuel St' (finishBranch E)

/-- Initial engine state: one root context with a single empty value set. -/
def initEngineSt : EngineSt := ⟨[⟨none, [[]]⟩], [0]⟩

/-- Embeds `PCRProtectionProfile.ComputePCRValues`.  The fuel bound
`levelSize p + 2` strictly exceeds the measure of the initial iterator
state, which every call to `next` strictly decreases. -/
def ComputePCRValues (hm : HashModel) (tpm : Option TPMReader) (p : List Instr) : CVResult :=
  run hm tpm (levelSize p + 2) [p] initEngineSt

/-- The dispatch the evaluation loop performs on one iterator output; `run`
on positive fuel is exactly `iterNext` followed by this dispatch. -/
def runStep (hm : HashModel) (tpm : Option TPMReader) (fuel : Nat) (out : IterOut)
    (St' : List (List Instr)) (E : EngineSt) : CVResult :=
  match out with
  | .instr (.addPCRValue alg pcr value) =>
    run hm tpm fuel St' (updTopValues E (fun l => setValueList l alg pcr value))
  | .instr (.addPCRValueFromTPM alg pcr) =>
    match tpm with
    | none => .err (noTPMContextMsg alg pcr)
    | some t =>
      match t alg pcr with
      | none => .err (pcrReadErrMsg alg pcr)
      | some d => run hm tpm fuel St' (updTopValues E (fun l => setValueList l alg pcr d))
  | .instr (.extendPCR alg pcr value) =>
    run hm tpm fuel St' (updTopValues E (fun l => extendValueList hm l alg pcr value))
  | .instr (.addProfileOR ps) =>
    run hm tpm fuel St' (handleBranches E ps.length)
  | .endProfile =>
    if (getCtx E (topIdx E)).parent = none then .ok ((getCtx E (topIdx E)).values)
    else run hm tpm fuel St' (finishBranch E)

/-- Termination measure of an iterator state: total instruction-tree size
plus one per open level.  Every call to `next` strictly decreases it. -/
def levelsMeasure (St : List (List Instr)) : Nat :=
  (St.map (fun l => levelSize l + 1)).sum

/-- Well-formedness relating iterator state and engine state during
evaluation: one open level per stack entry, valid arena indices, the bottom
of the stack is the root context (no parent), and every other stack entry
has a valid parent reference. -/
def EngineInv (St : List (List Instr)) (E : EngineSt) : Prop :=
  St.length = E.stack.length ∧
  (∀ i ∈ E.stack, i < E.arena.length) ∧
  ∃ l r, E.stack = l ++ [r] ∧ (getCtx E r).parent = none ∧
    ∀ i ∈ l, ∃ j, (getCtx E i).parent = some j ∧ j < E.arena.length

/-- Bank-major, index-ascending order on PCR keys. -/
def keyLtb (a b : PCRKey) : Bool :=
  decide (a.1 < b.1) || (decide (a.1 = b.1) && decide (a.2 < b.2))

/-- Insertion step of the sorted selection derivation. -/
def insertKey (k : PCRKey) : List PCRKey → List PCRKey
  | [] => [k]
  | x :: xs => if keyLtb k x then k :: x :: xs else x :: insertKey k xs

/-- Sort a key list bank-major then index-ascending. -/
def sortKeys : List PCRKey → List PCRKey
  | [] => []
  | k :: ks => insertKey k (sortKeys ks)

/-- Modelled from the spec: go-tpm2's `PCRValues.SelectionList`, the set of
(algorithm, register) keys of a value set in canonical (bank-major,
index-ascending) order. -/
def selectionOf (v : PCRVals) : List PCRKey :=
  sortKeys (v.map (fun e => e.1))

/-- Modelled from the spec: the digest part of go-tpm2's
`ComputePCRDigestSimple` - hash of the canonical encoding (concatenation in
selection order) of exactly the selected registers' values. -/
def compositeDigest (hm : HashModel) (alg : Alg) (v : PCRVals) : Digest :=
  hm.hash alg
    (((selectionOf v).map (fun k => (lookupEntry v k.1 k.2).getD [])).foldr (· ++ ·) [])

/-- Go error message for branches with mismatching PCR coverage. -/
def inconsistentPCRsMsg : String :=
  "not all branches contain values for the same sets of PCRs"

/-- Embeds the per-branch digest loop of `ComputePCRDigests`: each branch's
selection must equal the canonical one (`PCRSelectionList.Equal`), the
branch's composite digest is collected, and the first mismatch fails. -/
def computeDigestsLoop (hm : HashModel) (alg : Alg) (pcrs : List PCRKey) :
    List PCRVals → Except String (List Digest)
  | [] => .ok []
  | v :: rest =>
    if selectionOf v = pcrs then
      match computeDigestsLoop hm alg pcrs rest with
      | .ok ds => .ok (compositeDigest hm alg v :: ds)
      | .error e => .error e
    else .error inconsistentPCRsMsg

/-- Embeds the deduplication loop of `ComputePCRDigests`: scan the digests in
order, appending each one to the accumulator unless an equal digest is
already present. -/
def dedupAux : List Digest → List Digest → List Digest
  | acc, [] => acc
  | acc, d :: rest =>
    if acc.any (fun f => decide (d = f)) then dedupAux acc rest
    else dedupAux (acc ++ [d]) rest

/-- Result of `ComputePCRDigests`. -/
inductive CDResult where
  | ok (pcrs : List PCRKey) (digests : List Digest)
  | err (msg : String)
  | panicked
  | outOfFuel
deriving DecidableEq

/-- Embeds `PCRProtectionProfile.ComputePCRDigests`: compute all branch
value sets, derive the canonical selection from the first one (indexing an
empty result would panic), compute and check each branch's composite digest,
and deduplicate. -/
def ComputePCRDigests (hm : HashModel) (tpm : Option TPMReader) (p : List Instr) (alg : Alg) :
    CDResult :=
  match ComputePCRValues hm tpm p with
  | .ok [] => .panicked
  | .ok (v0 :: rest) =>
    match computeDigestsLoop hm alg (selectionOf v0) (v0 :: rest) with
    | .ok ds => .ok (selectionOf v0) (dedupAux [] ds)
    | .error e => .err e
  | .err e => .err e
  | .panicked => .panicked
  | .outOfFuel => .outOfFuel

/-! Reference (spec-side) definitions used to state the claims. -/

/-- Sequential effect of a single non-branch instruction on a single value
set, as the spec describes it. -/
def applyInstr (hm : HashModel) (tpm : Option TPMReader) (v : PCRVals) :
    Instr → Except String PCRVals
  | .addPCRValue alg pcr value => .ok (setEntry v alg pcr value)
  | .addPCRValueFromTPM alg pcr =>
    match tpm with
    | none => .error (noTPMContextMsg alg pcr)
    | some t =>
      match t alg pcr with
      | none => .error (pcrReadErrMsg alg pcr)
      | some d => .ok (setEntry v alg pcr d)
  | .extendPCR alg pcr value => .ok (extendEntry hm v alg pcr value)
  | .addProfileOR _ => .ok v

/-- Sequential application of a list of instructions to a single value set
in declaration order. -/
def applySeq (hm : HashModel) (tpm : Option TPMReader) :
    PCRVals → List Instr → Except String PCRVals
  | v, [] => .ok v
  | v, i :: rest =>
    match applyInstr hm tpm v i with
    | .ok w => applySeq hm tpm w rest
    | .error e => .error e

/-- Sequential application of each sub-profile to the same inherited value
set, collecting one result per sub-profile. -/
def applySeqAll (hm : HashModel) (tpm : Option TPMReader) (v0 : PCRVals) :
    List (List Instr) → Except String (List PCRVals)
  | [] => .ok []
  | s :: rest =>
    match applySeq hm tpm v0 s with
    | .error e => .error e
    | .ok r =>
      match applySeqAll hm tpm v0 rest with
      | .error e => .error e
      | .ok rs => .ok (r :: rs)

/-- `true` when an instruction is not a branch. -/
def notBranch : Instr → Bool
  | .addProfileOR _ => false
  | _ => true

/-- A profile with no branch instruction at its top level. -/
def noBranches (is : List Instr) : Bool := is.all notBranch

/-- `true` for the instructions whose effect is purely local
(`addPCRValue` / `extendPCR`). -/
def isLocalInstr : Instr → Bool
  | .addPCRValue _ _ _ => true
  | .extendPCR _ _ _ => true
  | _ => false

mutual

/-- No `addPCRValueFromTPM` instruction anywhere in the instruction, its
sub-profiles included. -/
def noTPMInstr : Instr → Bool
  | .addPCRValueFromTPM _ _ => false
  | .addProfileOR ps => noTPMProfiles ps
  | _ => true

/-- No `addPCRValueFromTPM` in any of the given sub-profiles. -/
def noTPMProfiles : List (List Instr) → Bool
  | [] => true
  | p :: r => noTPMLevel p && noTPMProfiles r

/-- No `addPCRValueFromTPM` anywhere in a profile. -/
def noTPMLevel : List Instr → Bool
  | [] => true
  | i :: r => noTPMInstr i && noTPMLevel r

end

/-- First-occurrence deduplication, as the spec states it: keep each digest
the first time it appears, dropping all later equal occurrences. -/
def dedupFirstOcc : List Digest → List Digest
  | [] => []
  | d :: rest => d :: dedupFirstOcc (rest.filter (fun x => !decide (x = d)))
termination_by l => l.length
decreasing_by
  simp only [List.length_cons]
  exact Nat.lt_succ_of_le (List.length_filter_le _ _)

/-- Effect of a single non-branch instruction on a whole value-set list, as
the engine performs it (`setValue` / `extendValue` over all live paths). -/
def applyInstrL (hm : HashModel) (tpm : Option TPMReader) (l : PCRValsList) :
    Instr → Except String PCRValsList
  | .addPCRValue alg pcr value => .ok (setValueList l alg pcr value)
  | .addPCRValueFromTPM alg pcr =>
    match tpm with
    | none => .error (noTPMContextMsg alg pcr)
    | some t =>
      match t alg pcr with
      | none => .error (pcrReadErrMsg alg pcr)
      | some d => .ok (setValueList l alg pcr d)
  | .extendPCR alg pcr value => .ok (extendValueList hm l alg pcr value)
  | .addProfileOR _ => .ok l

/-- Sequential application of a straight-line instruction list to a whole
value-set list. -/
def applySeqL (hm : HashModel) (tpm : Option TPMReader) :
    PCRValsList → List Instr → Except String PCRValsList
  | l, [] => .ok l
  | l, i :: rest =>
    match applyInstrL hm tpm l i with
    | .ok l2 => applySeqL hm tpm l2 rest
    | .error e => .error e

/-- A small concrete executable hash model used by the witnesses. -/
def hmTest : HashModel :=
  { size := fun _ => 1
    hash := fun _ l => [(l.foldl (fun a b => a + b + 1) 7) % 251] }

/-! ### List and engine-state helper lemmas -/

theorem list_set_getD_self {α : Type} (l : List α) (i : Nat) (d : α) (h : i < l.length) :
    l.set i (l.getD i d) = l := by
  apply List.ext_getElem?
  intro n
  by_cases hn : i = n
  · subst hn
    rw [List.getElem?_set_self h]
    simp [List.getD_eq_getElem?_getD, List.getElem?_eq_getElem h]
  · rw [List.getElem?_set_ne hn]

theorem topIdx_upd (E : EngineSt) (f : PCRValsList → PCRValsList) :
    topIdx (updTopValues E f) = topIdx E := rfl

theorem stack_upd (E : EngineSt) (f : PCRValsList → PCRValsList) :
    (updTopValues E f).stack = E.stack := rfl

theorem arena_len_upd (E : EngineSt) (f : PCRValsList → PCRValsList) :
    (updTopValues E f).arena.length = E.arena.length := by
  simp [updTopValues]

theorem getCtx_upd_top (E : EngineSt) (f : PCRValsList → PCRValsList)
    (h : topIdx E < E.arena.length) :
    getCtx (updTopValues E f) (topIdx E) =
      ⟨(getCtx E (topIdx E)).parent, f (getCtx E (topIdx E)).values⟩ := by
  simp only [updTopValues, getCtx, List.getD_eq_getElem?_getD]
  rw [List.getElem?_set_self h]
  simp

theorem upd_arena (E : EngineSt) (f : PCRValsList → PCRValsList) :
    (updTopValues E f).arena =
      E.arena.set (topIdx E)
        ⟨(getCtx E (topIdx E)).parent, f (getCtx E (topIdx E)).values⟩ := rfl

theorem engineSt_eq_of (E1 E2 : EngineSt) (ha : E1.arena = E2.arena)
    (hs : E1.stack = E2.stack) : E1 = E2 := by
  cases E1
  cases E2
  cases ha
  cases hs
  rfl

theorem upd_upd (E : EngineSt) (f g : PCRValsList → PCRValsList)
    (h : topIdx E < E.arena.length) :
    updTopValues (updTopValues E f) g = updTopValues E (fun v => g (f v)) := by
  apply engineSt_eq_of
  · rw [upd_arena, upd_arena, topIdx_upd, getCtx_upd_top E f h, upd_arena]
    exact List.set_set _ _ _ _
  · rfl

theorem upd_const_self (E : EngineSt) (h : topIdx E < E.arena.length) :
    updTopValues E (fun _ => (getCtx E (topIdx E)).values) = E := by
  apply engineSt_eq_of
  case hs => rfl
  rw [upd_arena]
  have : (⟨(getCtx E (topIdx E)).parent, (getCtx E (topIdx E)).values⟩ : ComputeCtx) =
      getCtx E (topIdx E) := rfl
  rw [this]
  exact list_set_getD_self E.arena _ _ h

/-! ### Iterator step lemmas -/

theorem iterNextCore_local (i : Instr) (hi : notBranch i = true) (tl : List Instr) :
    iterNextCore (i :: tl) = (.instr i, [tl]) := by
  cases i with
  | addPCRValue alg pcr value => rfl
  | addPCRValueFromTPM alg pcr => rfl
  | extendPCR alg pcr value => rfl
  | addProfileOR ps => simp [notBranch] at hi

theorem iterNext_cons_local (i : Instr) (hi : notBranch i = true) (tl : List Instr)
    (rest : List (List Instr)) :
    iterNext ((i :: tl) :: rest) = some (.instr i, tl :: rest) := by
  simp [iterNext, iterNextCore_local i hi tl]

theorem iterNext_nil_level (rest : List (List Instr)) :
    iterNext (([] : List Instr) :: rest) = some (.endProfile, rest) := rfl

theorem iterNext_or (ps : List (List Instr)) (hps : ps ≠ []) (tl : List Instr)
    (rest : List (List Instr)) :
    iterNext ((.addProfileOR ps :: tl) :: rest) =
      some (.instr (.addProfileOR ps), ps ++ tl :: rest) := by
  simp [iterNext, iterNextCore, hps]

/-! ### Engine step lemmas -/

theorem run_succ_eq (hm : HashModel) (tpm : Option TPMReader) (fuel : Nat)
    (St : List (List Instr)) (E : EngineSt) :
    run hm tpm (fuel + 1) St E =
      match iterNext St with
      | none => .panicked
      | some (out, St') =>
        match out with
        | .instr (.addPCRValue alg pcr value) =>
          run hm tpm fuel St' (updTopValues E (fun l => setValueList l alg pcr value))
        | .instr (.addPCRValueFromTPM alg pcr) =>
          match tpm with
          | none => .err (noTPMContextMsg alg pcr)
          | some t =>
            match t alg pcr with
            | none => .err (pcrReadErrMsg alg pcr)
            | some d => run hm tpm fuel St' (updTopValues E (fun l => setValueList l alg pcr d))
        | .instr (.extendPCR alg pcr value) =>
          run hm tpm fuel St' (updTopValues E (fun l => extendValueList hm l alg pcr value))
        | .instr (.addProfileOR ps) =>
          run hm tpm fuel St' (handleBranches E ps.length)
        | .endProfile =>
          if (getCtx E (topIdx E)).parent = none then .ok ((getCtx E (topIdx E)).values)
          else run hm tpm fuel St' (finishBranch E) := rfl

section RunSteps

variable {hm : HashModel} {tpm : Option TPMReader} {St St' : List (List Instr)}
  {E : EngineSt} {fuel : Nat}

theorem run_step_panic (h : iterNext St = none) :
    run hm tpm (fuel + 1) St E = .panicked := by
  rw [run_succ_eq, h]

theorem run_step_set {alg : Alg} {pcr : Nat} {value : Digest}
    (h : iterNext St = some (.instr (.addPCRValue alg pcr value), St')) :
    run hm tpm (fuel + 1) St E =
      run hm tpm fuel St' (updTopValues E (fun l => setValueList l alg pcr value)) := by
  rw [run_succ_eq, h]

theorem run_step_tpm_none {alg : Alg} {pcr : Nat}
    (h : iterNext St = some (.instr (.addPCRValueFromTPM alg pcr), St')) :
    run hm none (fuel + 1) St E = .err (noTPMContextMsg alg pcr) := by
  rw [run_succ_eq, h]

theorem run_step_tpm_fail {alg : Alg} {pcr : Nat} {t : TPMReader}
    (h : iterNext St = some (.instr (.addPCRValueFromTPM alg pcr), St'))
    (ht : t alg pcr = none) :
    run hm (some t) (fuel + 1) St E = .err (pcrReadErrMsg alg pcr) := by
  rw [run_succ_eq, h]
  dsimp only
  rw [ht]

theorem run_step_tpm_ok {alg : Alg} {pcr : Nat} {t : TPMReader} {d : Digest}
    (h : iterNext St = some (.instr (.addPCRValueFromTPM alg pcr), St'))
    (ht : t alg pcr = some d) :
    run hm (some t) (fuel + 1) St E =
      run hm (some t) fuel St' (updTopValues E (fun l => setValueList l alg pcr d)) := by
  rw [run_succ_eq, h]
  dsimp only
  rw [ht]

theorem run_step_extend {alg : Alg} {pcr : Nat} {value : Digest}
    (h : iterNext St = some (.instr (.extendPCR alg pcr value), St')) :
    run hm tpm (fuel + 1) St E =
      run hm tpm fuel St' (updTopValues E (fun l => extendValueList hm l alg pcr value)) := by
  rw [run_succ_eq, h]

theorem run_step_or {ps : List (List Instr)}
    (h : iterNext St = some (.instr (.addProfileOR ps), St')) :
    run hm tpm (fuel + 1) St E = run hm tpm fuel St' (handleBranches E ps.length) := by
  rw [run_succ_eq, h]

theorem run_step_end_root (h : iterNext St = some (.endProfile, St'))
    (hr : (getCtx E (topIdx E)).parent = none) :
    run hm tpm (fuel + 1) St E = .ok ((getCtx E (topIdx E)).values) := by
  rw [run_succ_eq, h]
  dsimp only
  rw [if_pos hr]

theorem run_step_end_sub (h : iterNext St = some (.endProfile, St'))
    (hr : (getCtx E (topIdx E)).parent ≠ none) :
    run hm tpm (fuel + 1) St E = run hm tpm fuel St' (finishBranch E) := by
  rw [run_succ_eq, h]
  dsimp only
  rw [if_neg hr]

end RunSteps

/-! ### Straight-line segments -/

theorem applySeqL_singleton (hm : HashModel) (tpm : Option TPMReader) (is : List Instr) :
    ∀ v : PCRVals,
    applySeqL hm tpm [v] is =
      match applySeq hm tpm v is with
      | .ok r => .ok [r]
      | .error e => .error e := by
  induction is with
  | nil => intro v; rfl
  | cons i is' ih =>
    intro v
    cases i with
    | addPCRValue alg pcr value =>
      simp only [applySeqL, applyInstrL, applySeq, applyInstr, setValueList, List.map_cons,
        List.map_nil]
      exact ih _
    | addPCRValueFromTPM alg pcr =>
      cases tpm with
      | none => simp only [applySeqL, applyInstrL, applySeq, applyInstr]
      | some t =>
        cases ht : t alg pcr with
        | none => simp only [applySeqL, applyInstrL, applySeq, applyInstr, ht]
        | some d =>
          simp only [applySeqL, applyInstrL, applySeq, applyInstr, ht, setValueList,
            List.map_cons, List.map_nil]
          exact ih _
    | extendPCR alg pcr value =>
      simp only [applySeqL, applyInstrL, applySeq, applyInstr, extendValueList, List.map_cons,
        List.map_nil]
      exact ih _
    | addProfileOR ps =>
      simp only [applySeqL, applyInstrL, applySeq, applyInstr]
      exact ih _

theorem run_straight_ok (hm : HashModel) (tpm : Option TPMReader) (is : List Instr) :
    ∀ (tail : List Instr) (rest : List (List Instr)) (E : EngineSt) (fuel : Nat)
      (L : PCRValsList),
    noBranches is = true →
    topIdx E < E.arena.length →
    applySeqL hm tpm (getCtx E (topIdx E)).values is = .ok L →
    run hm tpm (is.length + fuel) ((is ++ tail) :: rest) E =
      run hm tpm fuel (tail :: rest) (updTopValues E (fun _ => L)) := by
  induction is with
  | nil =>
    intro tail rest E fuel L _ hE happ
    simp only [applySeqL] at happ
    cases happ
    rw [upd_const_self E hE]
    simp
  | cons i is' ih =>
    intro tail rest E fuel L hsim hE happ
    have hsplit : notBranch i = true ∧ noBranches is' = true := by
      simpa [noBranches, List.all_cons, Bool.and_eq_true] using hsim
    have hl : (i :: is').length + fuel = (is'.length + fuel) + 1 := by
      simp [List.length_cons]
      omega
    rw [hl]
    have hupd : ∀ (f : PCRValsList → PCRValsList) (L2 : PCRValsList),
        applySeqL hm tpm (f (getCtx E (topIdx E)).values) is' = .ok L2 →
        run hm tpm (is'.length + fuel) ((is' ++ tail) :: rest) (updTopValues E f) =
          run hm tpm fuel (tail :: rest) (updTopValues E (fun _ => L2)) := by
      intro f L2 happ2
      have hE' : topIdx (updTopValues E f) < (updTopValues E f).arena.length := by
        rw [topIdx_upd, arena_len_upd]
        exact hE
      have hval : (getCtx (updTopValues E f) (topIdx (updTopValues E f))).values =
          f (getCtx E (topIdx E)).values := by
        rw [topIdx_upd, getCtx_upd_top E f hE]
      rw [ih tail rest (updTopValues E f) fuel L2 hsplit.2 hE' (by rw [hval]; exact happ2)]
      rw [upd_upd E _ _ hE]
    cases i with
    | addPCRValue alg pcr value =>
      simp only [applySeqL, applyInstrL] at happ
      rw [List.cons_append, run_step_set (iterNext_cons_local (.addPCRValue alg pcr value) rfl _ _)]
      exact hupd _ _ happ
    | addPCRValueFromTPM alg pcr =>
      cases tpm with
      | none =>
        simp only [applySeqL, applyInstrL] at happ
        exact Except.noConfusion happ
      | some t =>
        cases ht : t alg pcr with
        | none =>
          simp only [applySeqL, applyInstrL, ht] at happ
          exact Except.noConfusion happ
        | some d =>
          simp only [applySeqL, applyInstrL, ht] at happ
          rw [List.cons_append, run_step_tpm_ok (iterNext_cons_local (.addPCRValueFromTPM alg pcr) rfl _ _) ht]
          exact hupd _ _ happ
    | extendPCR alg pcr value =>
      simp only [applySeqL, applyInstrL] at happ
      rw [List.cons_append, run_step_extend (iterNext_cons_local (.extendPCR alg pcr value) rfl _ _)]
      exact hupd _ _ happ
    | addProfileOR ps =>
      simp [notBranch] at hsplit

theorem run_straight_err (hm : HashModel) (tpm : Option TPMReader) (is : List Instr) :
    ∀ (tail : List Instr) (rest : List (List Instr)) (E : EngineSt) (fuel : Nat) (e : String),
    noBranches is = true →
    topIdx E < E.arena.length →
    applySeqL hm tpm (getCtx E (topIdx E)).values is = .error e →
    run hm tpm (is.length + fuel) ((is ++ tail) :: rest) E = .err e := by
  induction is with
  | nil =>
    intro tail rest E fuel e _ hE happ
    simp only [applySeqL] at happ
    exact Except.noConfusion happ
  | cons i is' ih =>
    intro tail rest E fuel e hsim hE happ
    have hsplit : notBranch i = true ∧ noBranches is' = true := by
      simpa [noBranches, List.all_cons, Bool.and_eq_true] using hsim
    have hl : (i :: is').length + fuel = (is'.length + fuel) + 1 := by
      simp [List.length_cons]
      omega
    rw [hl]
    have hupd : ∀ (f : PCRValsList → PCRValsList),
        applySeqL hm tpm (f (getCtx E (topIdx E)).values) is' = .error e →
        run hm tpm (is'.length + fuel) ((is' ++ tail) :: rest) (updTopValues E f) = .err e := by
      intro f happ2
      have hE' : topIdx (updTopValues E f) < (updTopValues E f).arena.length := by
        rw [topIdx_upd, arena_len_upd]
        exact hE
      have hval : (getCtx (updTopValues E f) (topIdx (updTopValues E f))).values =
          f (getCtx E (topIdx E)).values := by
        rw [topIdx_upd, getCtx_upd_top E f hE]
      exact ih tail rest (updTopValues E f) fuel e hsplit.2 hE' (by rw [hval]; exact happ2)
    cases i with
    | addPCRValue alg pcr value =>
      simp only [applySeqL, applyInstrL] at happ
      rw [List.cons_append, run_step_set (iterNext_cons_local (.addPCRValue alg pcr value) rfl _ _)]
      exact hupd _ happ
    | addPCRValueFromTPM alg pcr =>
      cases tpm with
      | none =>
        simp only [applySeqL, applyInstrL] at happ
        rw [List.cons_append, run_step_tpm_none (iterNext_cons_local (.addPCRValueFromTPM alg pcr) rfl _ _)]
        cases happ
        rfl
      | some t =>
        cases ht : t alg pcr with
        | none =>
          simp only [applySeqL, applyInstrL, ht] at happ
          rw [List.cons_append, run_step_tpm_fail (iterNext_cons_local (.addPCRValueFromTPM alg pcr) rfl _ _) ht]
          cases happ
          rfl
        | some d =>
          simp only [applySeqL, applyInstrL, ht] at happ
          rw [List.cons_append, run_step_tpm_ok (iterNext_cons_local (.addPCRValueFromTPM alg pcr) rfl _ _) ht]
          exact hupd _ happ
    | extendPCR alg pcr value =>
      simp only [applySeqL, applyInstrL] at happ
      rw [List.cons_append, run_step_extend (iterNext_cons_local (.extendPCR alg pcr value) rfl _ _)]
      exact hupd _ happ
    | addProfileOR ps =>
      simp [notBranch] at hsplit

/-! ### Branch evaluation -/

theorem copyList_eq (l : PCRValsList) : copyList l = l := by
  simp [copyList]

theorem list_getD_append_length {α : Type} (l1 : List α) (x : α) (l2 : List α) (d : α) :
    (l1 ++ x :: l2).getD l1.length d = x := by
  induction l1 with
  | nil => rfl
  | cons a tl ih => simpa using ih

theorem list_set_append_length {α : Type} (l1 : List α) (x y : α) (l2 : List α) :
    (l1 ++ x :: l2).set l1.length y = l1 ++ y :: l2 := by
  induction l1 with
  | nil => rfl
  | cons a tl ih => simp [ih]

theorem run_children (hm : HashModel) (tpm : Option TPMReader) (subs : List (List Instr)) :
    ∀ (preCtxs : List ComputeCtx) (done : PCRValsList) (v0 : PCRVals) (fuel : Nat),
    (∀ s ∈ subs, noBranches s = true) →
    run hm tpm ((subs.map (fun s => s.length + 1)).sum + 1 + fuel) (subs ++ [[]])
      ⟨⟨none, done⟩ :: (preCtxs ++ List.replicate subs.length ⟨some 0, [v0]⟩),
        List.range' (preCtxs.length + 1) subs.length ++ [0]⟩ =
      match applySeqAll hm tpm v0 subs with
      | .ok rs => .ok (done ++ rs)
      | .error e => .err e := by
  induction subs with
  | nil =>
    intro preCtxs done v0 fuel _
    have hfuel : (([] : List (List Instr)).map (fun s => s.length + 1)).sum + 1 + fuel =
        fuel + 1 := by
      simp only [List.map_nil, List.sum_nil]
      omega
    rw [hfuel]
    simp only [List.nil_append, List.replicate, List.range', List.append_nil]
    rw [@run_step_end_root hm tpm [[]] [] ⟨⟨none, done⟩ :: preCtxs, [0]⟩ fuel
      (iterNext_nil_level []) rfl]
    simp [applySeqAll, getCtx, topIdx]
  | cons s subs' ih =>
    intro preCtxs done v0 fuel hsim
    have hs : noBranches s = true := hsim s (List.mem_cons_self _ _)
    have hsubs' : ∀ u ∈ subs', noBranches u = true :=
      fun u hu => hsim u (List.mem_cons_of_mem _ hu)
    simp only [List.length_cons]
    rw [List.replicate_succ, List.range'_succ]
    simp only [List.cons_append]
    set c0 : ComputeCtx := ⟨some 0, [v0]⟩ with hc0
    set E0 : EngineSt :=
      ⟨⟨none, done⟩ :: (preCtxs ++ c0 :: List.replicate subs'.length c0),
        (preCtxs.length + 1) :: (List.range' (preCtxs.length + 1 + 1) subs'.length ++ [0])⟩
      with hE0
    have htop : topIdx E0 = preCtxs.length + 1 := rfl
    have hget : getCtx E0 (topIdx E0) = c0 := by
      show (⟨none, done⟩ :: (preCtxs ++ c0 :: List.replicate subs'.length c0)).getD
        (preCtxs.length + 1) ⟨none, []⟩ = c0
      rw [List.getD_cons_succ, list_getD_append_length]
    have hlen : topIdx E0 < E0.arena.length := by
      rw [htop]
      show preCtxs.length + 1 < (⟨none, done⟩ ::
        (preCtxs ++ c0 :: List.replicate subs'.length c0)).length
      simp
    have hfuel : (((s :: subs').map (fun u => u.length + 1)).sum + 1 + fuel) =
        s.length + ((subs'.map (fun u => u.length + 1)).sum + 1 + fuel + 1) := by
      simp [List.map_cons, List.sum_cons]
      omega
    rw [hfuel]
    have hSt : (s :: (subs' ++ [[]]) : List (List Instr)) =
        (s ++ []) :: (subs' ++ [[]]) := by
      rw [List.append_nil]
    rw [hSt]
    cases happ : applySeq hm tpm v0 s with
    | error e =>
      have happL : applySeqL hm tpm (getCtx E0 (topIdx E0)).values s = .error e := by
        rw [hget]
        show applySeqL hm tpm [v0] s = .error e
        rw [applySeqL_singleton hm tpm s v0, happ]
      rw [run_straight_err hm tpm s [] (subs' ++ [[]]) E0 _ e hs hlen happL]
      simp only [applySeqAll, happ]
    | ok r =>
      have happL : applySeqL hm tpm (getCtx E0 (topIdx E0)).values s = .ok [r] := by
        rw [hget]
        show applySeqL hm tpm [v0] s = .ok [r]
        rw [applySeqL_singleton hm tpm s v0, happ]
      rw [run_straight_ok hm tpm s [] (subs' ++ [[]]) E0 _ [r] hs hlen happL]
      set E1 : EngineSt :=
        ⟨⟨none, done⟩ :: (preCtxs ++ (⟨some 0, [r]⟩ : ComputeCtx) ::
            List.replicate subs'.length c0),
          (preCtxs.length + 1) :: (List.range' (preCtxs.length + 1 + 1) subs'.length ++ [0])⟩
        with hE1
      have hE1eq : updTopValues E0 (fun _ => [r]) = E1 := by
        apply engineSt_eq_of
        · rw [upd_arena, hget]
          show (⟨none, done⟩ :: (preCtxs ++ c0 :: List.replicate subs'.length c0)).set
              (preCtxs.length + 1) ⟨some 0, [r]⟩ =
            ⟨none, done⟩ :: (preCtxs ++ (⟨some 0, [r]⟩ : ComputeCtx) ::
              List.replicate subs'.length c0)
          rw [List.set_cons_succ, list_set_append_length]
        · rfl
      rw [hE1eq]
      have hgetE1 : getCtx E1 (topIdx E1) = ⟨some 0, [r]⟩ := by
        show (⟨none, done⟩ :: (preCtxs ++ (⟨some 0, [r]⟩ : ComputeCtx) ::
            List.replicate subs'.length c0)).getD (preCtxs.length + 1) ⟨none, []⟩ =
          ⟨some 0, [r]⟩
        rw [List.getD_cons_succ, list_getD_append_length]
      rw [run_step_end_sub (iterNext_nil_level (subs' ++ [[]]))
        (by rw [hgetE1]; exact Option.noConfusion)]
      set E2 : EngineSt :=
        ⟨⟨none, done ++ [r]⟩ :: (preCtxs ++ (⟨some 0, [r]⟩ : ComputeCtx) ::
            List.replicate subs'.length c0),
          List.range' (preCtxs.length + 1 + 1) subs'.length ++ [0]⟩ with hE2
      have hfin : finishBranch E1 = E2 := by
        have hstep : finishBranch E1 =
            match (getCtx E1 (topIdx E1)).parent with
            | some p =>
              (⟨E1.arena.set p ⟨(getCtx E1 p).parent,
                  (getCtx E1 p).values ++ (getCtx E1 (topIdx E1)).values⟩,
                E1.stack.tail⟩ : EngineSt)
            | none => (⟨E1.arena, E1.stack.tail⟩ : EngineSt) := rfl
        rw [hstep, hgetE1]
        rfl
      rw [hfin]
      have harena : preCtxs ++ (⟨some 0, [r]⟩ : ComputeCtx) ::
          List.replicate subs'.length c0 =
          (preCtxs ++ [(⟨some 0, [r]⟩ : ComputeCtx)]) ++ List.replicate subs'.length c0 := by
        simp
      have hstart : preCtxs.length + 1 + 1 =
          (preCtxs ++ [(⟨some 0, [r]⟩ : ComputeCtx)]).length + 1 := by
        simp
      have hih := ih (preCtxs ++ [(⟨some 0, [r]⟩ : ComputeCtx)]) (done ++ [r]) v0 fuel hsubs'
      rw [hE2, harena, hstart, hc0]
      rw [hih]
      simp only [applySeqAll, happ]
      cases applySeqAll hm tpm v0 subs' with
      | ok rs => simp
      | error e => rfl

/-! ### Size bookkeeping for the fuel bound -/

theorem levelSize_append (a b : List Instr) :
    levelSize (a ++ b) = levelSize a + levelSize b := by
  induction a with
  | nil => simp [levelSize]
  | cons i tl ih =>
    simp only [List.cons_append, levelSize]
    rw [show (tl.append b : List Instr) = tl ++ b from rfl, ih]
    omega

theorem instrSize_of_notBranch (i : Instr) (hi : notBranch i = true) : instrSize i = 1 := by
  cases i with
  | addPCRValue alg pcr value => rfl
  | addPCRValueFromTPM alg pcr => rfl
  | extendPCR alg pcr value => rfl
  | addProfileOR ps => simp [notBranch] at hi

theorem levelSize_of_noBranches (is : List Instr) (h : noBranches is = true) :
    levelSize is = is.length := by
  induction is with
  | nil => rfl
  | cons i tl ih =>
    have hsplit : notBranch i = true ∧ noBranches tl = true := by
      simpa [noBranches, List.all_cons, Bool.and_eq_true] using h
    simp only [levelSize, instrSize_of_notBranch i hsplit.1, ih hsplit.2, List.length_cons]
    omega

theorem profilesSize_eq_sum (subs : List (List Instr)) :
    profilesSize subs = (subs.map (fun s => levelSize s + 1)).sum := by
  induction subs with
  | nil => rfl
  | cons s tl ih => simp [profilesSize, ih]

/-- Evaluating a profile consisting of a straight-line prefix followed by a
single branch instruction: the result is one value set per sub-profile, in
order, each obtained by applying that sub-profile's instructions to the
values inherited from the prefix. -/
theorem computeValues_branch (hm : HashModel) (tpm : Option TPMReader)
    (pre : List Instr) (subs : List (List Instr)) (v0 : PCRVals)
    (hpre : noBranches pre = true) (hne : subs ≠ [])
    (hsubs : ∀ s ∈ subs, noBranches s = true)
    (hv0 : applySeq hm tpm [] pre = .ok v0) :
    ComputePCRValues hm tpm (pre ++ [.addProfileOR subs]) =
      match applySeqAll hm tpm v0 subs with
      | .ok rs => .ok rs
      | .error e => .err e := by
  unfold ComputePCRValues
  have hfuel : levelSize (pre ++ [.addProfileOR subs]) + 2 =
      pre.length + (((subs.map (fun s => s.length + 1)).sum + 1 + 1) + 1) := by
    rw [levelSize_append, levelSize_of_noBranches pre hpre]
    have h1 : levelSize [.addProfileOR subs] = 1 + profilesSize subs := by
      simp [levelSize, instrSize]
    rw [h1, profilesSize_eq_sum]
    have h2 : subs.map (fun s => levelSize s + 1) = subs.map (fun s => s.length + 1) :=
      List.map_congr_left (fun s hs => by rw [levelSize_of_noBranches s (hsubs s hs)])
    rw [h2]
    omega
  rw [hfuel]
  have happL : applySeqL hm tpm
      (getCtx initEngineSt (topIdx initEngineSt)).values pre = .ok [v0] := by
    show applySeqL hm tpm [[]] pre = .ok [v0]
    rw [applySeqL_singleton hm tpm pre [], hv0]
  rw [run_straight_ok hm tpm pre [.addProfileOR subs] [] initEngineSt _ [v0]
    hpre (by decide) happL]
  have hE1 : updTopValues initEngineSt (fun _ => [v0]) =
      (⟨[⟨none, [v0]⟩], [0]⟩ : EngineSt) := rfl
  rw [hE1]
  have hiter : iterNext ([(.addProfileOR subs : Instr)] :: ([] : List (List Instr))) =
      some (.instr (.addProfileOR subs), subs ++ [[]]) := by
    have := iterNext_or subs hne [] []
    simpa using this
  have hstep : ((subs.map (fun s => s.length + 1)).sum + 1 + 1) + 1 =
      ((subs.map (fun s => s.length + 1)).sum + 1 + 1) + 1 := rfl
  rw [run_step_or hiter]
  have hhb : handleBranches (⟨[⟨none, [v0]⟩], [0]⟩ : EngineSt) subs.length =
      ⟨⟨none, []⟩ :: List.replicate subs.length ⟨some 0, [v0]⟩,
        List.range' 1 subs.length ++ [0]⟩ := by
    apply engineSt_eq_of
    · show ([(⟨none, [v0]⟩ : ComputeCtx)].set 0 ⟨none, []⟩) ++
        List.replicate subs.length ⟨some 0, copyList [v0]⟩ = _
      rw [copyList_eq]
      rfl
    · show (List.range subs.length).map (fun k => 1 + k) ++ [0] = _
      rw [← List.range'_eq_map_range]
  rw [hhb]
  have hrc := run_children hm tpm subs [] [] v0 1 hsubs
  simp only [List.nil_append, List.length_nil, Nat.zero_add] at hrc
  rw [hrc]

/-- Evaluating a profile with no branch instruction: exactly one value set,
the sequential application of the instructions in declaration order. -/
theorem computeValues_simple (hm : HashModel) (tpm : Option TPMReader) (p : List Instr)
    (hp : noBranches p = true) :
    ComputePCRValues hm tpm p =
      match applySeq hm tpm [] p with
      | .ok v => .ok [v]
      | .error e => .err e := by
  unfold ComputePCRValues
  rw [levelSize_of_noBranches p hp]
  conv_lhs =>
    rw [show ([p] : List (List Instr)) = [p ++ []] from by rw [List.append_nil]]
  cases happ : applySeq hm tpm ([] : PCRVals) p with
  | ok v =>
    have happL : applySeqL hm tpm
        (getCtx initEngineSt (topIdx initEngineSt)).values p = .ok [v] := by
      show applySeqL hm tpm [[]] p = .ok [v]
      rw [applySeqL_singleton hm tpm p [], happ]
    rw [run_straight_ok hm tpm p [] [] initEngineSt 2 [v] hp (by decide) happL]
    have hE1 : updTopValues initEngineSt (fun _ => [v]) =
        (⟨[⟨none, [v]⟩], [0]⟩ : EngineSt) := rfl
    rw [hE1]
    rw [@run_step_end_root hm tpm [[]] [] ⟨[⟨none, [v]⟩], [0]⟩ 1
      (iterNext_nil_level []) rfl]
    rfl
  | error e =>
    have happL : applySeqL hm tpm
        (getCtx initEngineSt (topIdx initEngineSt)).values p = .error e := by
      show applySeqL hm tpm [[]] p = .error e
      rw [applySeqL_singleton hm tpm p [], happ]
    rw [run_straight_err hm tpm p [] [] initEngineSt 2 e hp (by decide) happL]

theorem isLocal_notBranch (i : Instr) (hi : isLocalInstr i = true) : notBranch i = true := by
  cases i with
  | addPCRValue alg pcr value => rfl
  | addPCRValueFromTPM alg pcr => simp [isLocalInstr] at hi
  | extendPCR alg pcr value => rfl
  | addProfileOR ps => simp [isLocalInstr] at hi

theorem local_noBranches (a : List Instr) (ha : ∀ i ∈ a, isLocalInstr i = true) :
    noBranches a = true := by
  simp only [noBranches, List.all_eq_true]
  exact fun i hi => isLocal_notBranch i (ha i hi)

/-- Purely local instructions always apply without error, for any
measurement source. -/
theorem local_applySeq_ok (hm : HashModel) (tpm : Option TPMReader) (a : List Instr) :
    ∀ (ha : ∀ i ∈ a, isLocalInstr i = true) (v : PCRVals),
    ∃ w, applySeq hm tpm v a = .ok w := by
  induction a with
  | nil => exact fun _ v => ⟨v, rfl⟩
  | cons i tl ih =>
    intro ha v
    have hi : isLocalInstr i = true := ha i (List.mem_cons_self _ _)
    have htl : ∀ j ∈ tl, isLocalInstr j = true :=
      fun j hj => ha j (List.mem_cons_of_mem _ hj)
    cases i with
    | addPCRValue alg pcr value =>
      obtain ⟨w, hw⟩ := ih htl (setEntry v alg pcr value)
      exact ⟨w, by simp only [applySeq, applyInstr]; exact hw⟩
    | addPCRValueFromTPM alg pcr => simp [isLocalInstr] at hi
    | extendPCR alg pcr value =>
      obtain ⟨w, hw⟩ := ih htl (extendEntry hm v alg pcr value)
      exact ⟨w, by simp only [applySeq, applyInstr]; exact hw⟩
    | addProfileOR ps => simp [isLocalInstr] at hi

/-- A profile whose straight-line prefix reaches an `addPCRValueFromTPM`
instruction fails when the TPM context is absent, and fails when the PCR
read itself fails; nothing is returned in either case. -/
theorem computeValues_tpm_err (hm : HashModel) (a b : List Instr) (alg : Alg) (pcr : Nat)
    (ha : ∀ i ∈ a, isLocalInstr i = true) :
    ComputePCRValues hm none (a ++ .addPCRValueFromTPM alg pcr :: b) =
        .err (noTPMContextMsg alg pcr) ∧
      ∀ t : TPMReader, t alg pcr = none →
        ComputePCRValues hm (some t) (a ++ .addPCRValueFromTPM alg pcr :: b) =
          .err (pcrReadErrMsg alg pcr) := by
  have hpre : noBranches a = true := local_noBranches a ha
  have hfuel : levelSize (a ++ .addPCRValueFromTPM alg pcr :: b) + 2 =
      a.length + (levelSize b + 3) := by
    rw [levelSize_append, levelSize_of_noBranches a hpre]
    simp only [levelSize, instrSize]
    omega
  constructor
  · obtain ⟨v0, hv0⟩ := local_applySeq_ok hm none a ha ([] : PCRVals)
    have happL : applySeqL hm none
        (getCtx initEngineSt (topIdx initEngineSt)).values a = .ok [v0] := by
      show applySeqL hm none [[]] a = .ok [v0]
      rw [applySeqL_singleton hm none a [], hv0]
    unfold ComputePCRValues
    rw [hfuel]
    rw [run_straight_ok hm none a (.addPCRValueFromTPM alg pcr :: b) [] initEngineSt
      (levelSize b + 3) [v0] hpre (by decide) happL]
    have h3 : levelSize b + 3 = (levelSize b + 2) + 1 := by omega
    rw [h3]
    exact run_step_tpm_none
      (iterNext_cons_local (.addPCRValueFromTPM alg pcr) rfl b [])
  · intro t ht
    obtain ⟨v0, hv0⟩ := local_applySeq_ok hm (some t) a ha ([] : PCRVals)
    have happL : applySeqL hm (some t)
        (getCtx initEngineSt (topIdx initEngineSt)).values a = .ok [v0] := by
      show applySeqL hm (some t) [[]] a = .ok [v0]
      rw [applySeqL_singleton hm (some t) a [], hv0]
    unfold ComputePCRValues
    rw [hfuel]
    rw [run_straight_ok hm (some t) a (.addPCRValueFromTPM alg pcr :: b) [] initEngineSt
      (levelSize b + 3) [v0] hpre (by decide) happL]
    have h3 : levelSize b + 3 = (levelSize b + 2) + 1 := by omega
    rw [h3]
    exact run_step_tpm_fail
      (iterNext_cons_local (.addPCRValueFromTPM alg pcr) rfl b []) ht

/-! ### Skipping empty branch instructions, fuel monotonicity, adequacy -/

theorem run_succ_eq2 (hm : HashModel) (tpm : Option TPMReader) (fuel : Nat)
    (St : List (List Instr)) (E : EngineSt) :
    run hm tpm (fuel + 1) St E =
      match iterNext St with
      | none => .panicked
      | some (out, St') => runStep hm tpm fuel out St' E := rfl

theorem runStep_congr (hm : HashModel) (tpm : Option TPMReader) (fuel : Nat) (out : IterOut)
    (S1 S2 : List (List Instr)) (E : EngineSt)
    (hrec : ∀ E' : EngineSt, run hm tpm fuel S1 E' = run hm tpm fuel S2 E') :
    runStep hm tpm fuel out S1 E = runStep hm tpm fuel out S2 E := by
  cases out with
  | instr i =>
    cases i with
    | addPCRValue alg pcr value => exact hrec _
    | addPCRValueFromTPM alg pcr =>
      simp only [runStep]
      cases tpm with
      | none => rfl
      | some t =>
        cases ht : t alg pcr with
        | none => simp only [ht]
        | some d =>
          simp only [ht]
          exact hrec _
    | extendPCR alg pcr value => exact hrec _
    | addProfileOR ps => exact hrec _
  | endProfile =>
    simp only [runStep]
    by_cases hr : (getCtx E (topIdx E)).parent = none
    · rw [if_pos hr, if_pos hr]
    · rw [if_neg hr, if_neg hr]
      exact hrec _

theorem iterNextCore_emptyOR (tl : List Instr) :
    iterNextCore (.addProfileOR [] :: tl) = iterNextCore tl := rfl

theorem iterNextCore_skip (w : List Instr) :
    ∀ L : List Instr,
    iterNextCore (L ++ .addProfileOR [] :: w) = iterNextCore (L ++ w) ∨
    ∃ (out : IterOut) (A' : List (List Instr)) (L' : List Instr),
      iterNextCore (L ++ .addProfileOR [] :: w) =
          (out, A' ++ [L' ++ .addProfileOR [] :: w]) ∧
        iterNextCore (L ++ w) = (out, A' ++ [L' ++ w]) := by
  intro L
  induction L with
  | nil => exact Or.inl (iterNextCore_emptyOR w)
  | cons i L' ih =>
    cases i with
    | addPCRValue alg pcr value =>
      exact Or.inr ⟨.instr (.addPCRValue alg pcr value), [], L', rfl, rfl⟩
    | addPCRValueFromTPM alg pcr =>
      exact Or.inr ⟨.instr (.addPCRValueFromTPM alg pcr), [], L', rfl, rfl⟩
    | extendPCR alg pcr value =>
      exact Or.inr ⟨.instr (.extendPCR alg pcr value), [], L', rfl, rfl⟩
    | addProfileOR ps =>
      by_cases hps : ps = []
      · subst hps
        rcases ih with h | ⟨out, A', L2, h1, h2⟩
        · exact Or.inl h
        · exact Or.inr ⟨out, A', L2, h1, h2⟩
      · have hne : ps.isEmpty = false := by
          simpa [List.isEmpty_iff] using hps
        refine Or.inr ⟨.instr (.addProfileOR ps), ps, L', ?_, ?_⟩
        · simp [iterNextCore, hne]
        · simp [iterNextCore, hne]

theorem run_skip (hm : HashModel) (tpm : Option TPMReader) :
    ∀ (fuel : Nat) (A : List (List Instr)) (L w : List Instr) (R0 : List (List Instr))
      (E : EngineSt),
    run hm tpm fuel (A ++ (L ++ .addProfileOR [] :: w) :: R0) E =
      run hm tpm fuel (A ++ (L ++ w) :: R0) E := by
  intro fuel
  induction fuel with
  | zero => intro A L w R0 E; rfl
  | succ f ih =>
    intro A L w R0 E
    cases A with
    | nil =>
      rcases iterNextCore_skip w L with hcore | ⟨out, A', L', h1, h2⟩
      · have hiter : iterNext (([] : List (List Instr)) ++
            (L ++ .addProfileOR [] :: w) :: R0) =
            iterNext (([] : List (List Instr)) ++ (L ++ w) :: R0) := by
          simp only [List.nil_append, iterNext, hcore]
        rw [run_succ_eq2, run_succ_eq2, hiter]
      · have hi1 : iterNext (([] : List (List Instr)) ++
            (L ++ .addProfileOR [] :: w) :: R0) =
            some (out, A' ++ ((L' ++ .addProfileOR [] :: w) :: R0)) := by
          simp only [List.nil_append, iterNext, h1, List.append_assoc, List.cons_append,
            List.nil_append]
        have hi2 : iterNext (([] : List (List Instr)) ++ (L ++ w) :: R0) =
            some (out, A' ++ ((L' ++ w) :: R0)) := by
          simp only [List.nil_append, iterNext, h2, List.append_assoc, List.cons_append,
            List.nil_append]
        rw [run_succ_eq2, run_succ_eq2, hi1, hi2]
        dsimp only
        exact runStep_congr hm tpm f out _ _ E (fun E' => ih A' L' w R0 E')
    | cons hd A'' =>
      have hi1 : iterNext ((hd :: A'') ++ (L ++ .addProfileOR [] :: w) :: R0) =
          some ((iterNextCore hd).1,
            ((iterNextCore hd).2 ++ A'') ++ ((L ++ .addProfileOR [] :: w) :: R0)) := by
        simp only [List.cons_append, iterNext, List.append_assoc]
      have hi2 : iterNext ((hd :: A'') ++ (L ++ w) :: R0) =
          some ((iterNextCore hd).1,
            ((iterNextCore hd).2 ++ A'') ++ ((L ++ w) :: R0)) := by
        simp only [List.cons_append, iterNext, List.append_assoc]
      rw [run_succ_eq2, run_succ_eq2, hi1, hi2]
      dsimp only
      exact runStep_congr hm tpm f ((iterNextCore hd).1) _ _ E
        (fun E' => ih ((iterNextCore hd).2 ++ A'') L w R0 E')

theorem levelsMeasure_append (A B : List (List Instr)) :
    levelsMeasure (A ++ B) = levelsMeasure A + levelsMeasure B := by
  simp [levelsMeasure]

theorem iterNextCore_measure (hd : List Instr) :
    levelsMeasure (iterNextCore hd).2 < levelSize hd + 1 := by
  induction hd with
  | nil => simp [iterNextCore, levelsMeasure]
  | cons i tl ih =>
    cases i with
    | addPCRValue alg pcr value =>
      simp only [iterNextCore, levelsMeasure, List.map_cons, List.map_nil, List.sum_cons,
        List.sum_nil, levelSize, instrSize]
      omega
    | addPCRValueFromTPM alg pcr =>
      simp only [iterNextCore, levelsMeasure, List.map_cons, List.map_nil, List.sum_cons,
        List.sum_nil, levelSize, instrSize]
      omega
    | extendPCR alg pcr value =>
      simp only [iterNextCore, levelsMeasure, List.map_cons, List.map_nil, List.sum_cons,
        List.sum_nil, levelSize, instrSize]
      omega
    | addProfileOR ps =>
      by_cases hps : ps = []
      · subst hps
        rw [iterNextCore_emptyOR]
        have h1 : levelSize (.addProfileOR [] :: tl) =
            1 + levelSize tl := by
          simp [levelSize, instrSize, profilesSize]
        omega
      · have hne : ps.isEmpty = false := by
          simpa [List.isEmpty_iff] using hps
        have hcore : (iterNextCore (.addProfileOR ps :: tl)).2 = ps ++ [tl] := by
          simp [iterNextCore, hne]
        rw [hcore]
        have h1 : levelsMeasure (ps ++ [tl]) =
            (ps.map (fun l => levelSize l + 1)).sum + (levelSize tl + 1) := by
          rw [levelsMeasure_append]
          simp [levelsMeasure]
        have h2 : profilesSize ps = (ps.map (fun l => levelSize l + 1)).sum :=
          profilesSize_eq_sum ps
        have h3 : levelSize (.addProfileOR ps :: tl) = (1 + profilesSize ps) + levelSize tl := by
          simp [levelSize, instrSize]
        omega

theorem iterNext_measure (St St' : List (List Instr)) (out : IterOut)
    (h : iterNext St = some (out, St')) : levelsMeasure St' < levelsMeasure St := by
  cases St with
  | nil => exact Option.noConfusion h
  | cons hd rest =>
    have h2 : St' = (iterNextCore hd).2 ++ rest := by
      have := h
      simp only [iterNext, Option.some_inj] at this
      exact (congrArg Prod.snd this).symm
    rw [h2, levelsMeasure_append]
    have h3 : levelsMeasure (hd :: rest) = (levelSize hd + 1) + levelsMeasure rest := by
      simp [levelsMeasure]
    rw [h3]
    have := iterNextCore_measure hd
    omega

theorem run_adequate (hm : HashModel) (tpm : Option TPMReader) :
    ∀ (fuel : Nat) (St : List (List Instr)) (E : EngineSt),
    levelsMeasure St < fuel → run hm tpm fuel St E ≠ .outOfFuel := by
  intro fuel
  induction fuel with
  | zero => intro St E h; omega
  | succ f ih =>
    intro St E h
    rw [run_succ_eq2]
    cases hiter : iterNext St with
    | none => exact fun hc => CVResult.noConfusion hc
    | some p =>
      obtain ⟨out, St'⟩ := p
      have hm' : levelsMeasure St' < f := by
        have := iterNext_measure St St' out hiter
        omega
      dsimp only
      cases out with
      | instr i =>
        cases i with
        | addPCRValue alg pcr value => exact ih St' _ hm'
        | addPCRValueFromTPM alg pcr =>
          simp only [runStep]
          cases tpm with
          | none => exact fun hc => CVResult.noConfusion hc
          | some t =>
            cases ht : t alg pcr with
            | none =>
              simp only [ht]
              exact fun hc => CVResult.noConfusion hc
            | some d =>
              simp only [ht]
              exact ih St' _ hm'
        | extendPCR alg pcr value => exact ih St' _ hm'
        | addProfileOR ps => exact ih St' _ hm'
      | endProfile =>
        simp only [runStep]
        by_cases hr : (getCtx E (topIdx E)).parent = none
        · rw [if_pos hr]
          exact fun hc => CVResult.noConfusion hc
        · rw [if_neg hr]
          exact ih St' _ hm'

theorem run_mono (hm : HashModel) (tpm : Option TPMReader) :
    ∀ (fuel : Nat) (St : List (List Instr)) (E : EngineSt),
    run hm tpm fuel St E ≠ .outOfFuel →
    ∀ k : Nat, run hm tpm (fuel + k) St E = run hm tpm fuel St E := by
  intro fuel
  induction fuel with
  | zero => intro St E h; exact absurd rfl h
  | succ f ih =>
    intro St E h k
    have hsucc : f + 1 + k = (f + k) + 1 := by omega
    rw [hsucc, run_succ_eq2, run_succ_eq2]
    rw [run_succ_eq2] at h
    cases hiter : iterNext St with
    | none => rfl
    | some p =>
      obtain ⟨out, St'⟩ := p
      rw [hiter] at h
      dsimp only
      dsimp only at h
      cases out with
      | instr i =>
        cases i with
        | addPCRValue alg pcr value => exact ih St' _ h k
        | addPCRValueFromTPM alg pcr =>
          simp only [runStep]
          simp only [runStep] at h
          cases tpm with
          | none => rfl
          | some t =>
            cases ht : t alg pcr with
            | none => simp only [ht]
            | some d =>
              simp only [ht]
              simp only [ht] at h
              exact ih St' _ h k
        | extendPCR alg pcr value => exact ih St' _ h k
        | addProfileOR ps => exact ih St' _ h k
      | endProfile =>
        simp only [runStep]
        simp only [runStep] at h
        by_cases hr : (getCtx E (topIdx E)).parent = none
        · simp only [if_pos hr]
        · simp only [if_neg hr]
          rw [if_neg hr] at h
          exact ih St' _ h k

/-- A branch instruction with zero sub-profiles can be removed from a
profile without changing the result of `ComputePCRValues`. -/
theorem computeValues_skip (hm : HashModel) (tpm : Option TPMReader) (a b : List Instr) :
    ComputePCRValues hm tpm (a ++ .addProfileOR [] :: b) =
      ComputePCRValues hm tpm (a ++ b) := by
  unfold ComputePCRValues
  have hsz : levelSize (a ++ .addProfileOR [] :: b) = levelSize (a ++ b) + 1 := by
    rw [levelSize_append, levelSize_append]
    have : levelSize (.addProfileOR [] :: b) = 1 + levelSize b := by
      simp [levelSize, instrSize, profilesSize]
    omega
  rw [hsz]
  have hskip := run_skip hm tpm (levelSize (a ++ b) + 2 + 1) [] a b [] initEngineSt
  simp only [List.nil_append] at hskip
  have h1 : levelSize (a ++ b) + 1 + 2 = levelSize (a ++ b) + 2 + 1 := by omega
  rw [h1, hskip]
  have hmeas : levelsMeasure [a ++ b] < levelSize (a ++ b) + 2 := by
    simp [levelsMeasure]
  exact run_mono hm tpm (levelSize (a ++ b) + 2) [a ++ b] initEngineSt
    (run_adequate hm tpm _ _ initEngineSt hmeas) 1

/-! ### Engine invariant and TPM-free evaluation -/

theorem getD_parent_set_preserve (A : List ComputeCtx) (p : Nat) (V : PCRValsList) (i : Nat) :
    ((A.set p ⟨(A.getD p ⟨none, []⟩).parent, V⟩).getD i ⟨none, []⟩).parent =
      (A.getD i ⟨none, []⟩).parent := by
  simp only [List.getD_eq_getElem?_getD]
  by_cases hip : p = i
  · subst hip
    rw [List.getElem?_set_self']
    cases hx : A[p]? with
    | none => simp
    | some c => simp [hx]
  · rw [List.getElem?_set_ne hip]

theorem getCtx_parent_upd (E : EngineSt) (f : PCRValsList → PCRValsList) (i : Nat) :
    (getCtx (updTopValues E f) i).parent = (getCtx E i).parent :=
  getD_parent_set_preserve E.arena (topIdx E) _ i

theorem topIdx_mem (E : EngineSt) (h : E.stack ≠ []) : topIdx E ∈ E.stack := by
  cases hs : E.stack with
  | nil => exact absurd hs h
  | cons a tl =>
    have ha : topIdx E = a := by
      show E.stack.headD 0 = a
      rw [hs]
      rfl
    rw [ha]
    exact List.mem_cons_self _ _

theorem EngineInv_upd (hd tl : List Instr) (rest : List (List Instr)) (E : EngineSt)
    (f : PCRValsList → PCRValsList) (hInv : EngineInv (hd :: rest) E) :
    EngineInv (tl :: rest) (updTopValues E f) := by
  obtain ⟨hlen, hvalid, l, r, hstack, hroot, hl⟩ := hInv
  refine ⟨?_, ?_, l, r, ?_, ?_, ?_⟩
  · rw [stack_upd]
    simpa using hlen
  · intro i hi
    rw [arena_len_upd]
    exact hvalid i (by rwa [stack_upd] at hi)
  · rw [stack_upd]
    exact hstack
  · rw [getCtx_parent_upd]
    exact hroot
  · intro i hi
    obtain ⟨j, hj1, hj2⟩ := hl i hi
    exact ⟨j, by rw [getCtx_parent_upd]; exact hj1, by rw [arena_len_upd]; exact hj2⟩

theorem hb_arena_len (E : EngineSt) (n : Nat) :
    (handleBranches E n).arena.length = E.arena.length + n := by
  simp [handleBranches]

theorem getCtx_parent_hb (E : EngineSt) (n : Nat) (i : Nat) (hi : i < E.arena.length) :
    (getCtx (handleBranches E n) i).parent = (getCtx E i).parent := by
  show ((E.arena.set (topIdx E) (⟨(getCtx E (topIdx E)).parent, []⟩ : ComputeCtx) ++
      List.replicate n
        (⟨some (topIdx E), copyList (getCtx E (topIdx E)).values⟩ : ComputeCtx)).getD i
        (⟨none, []⟩ : ComputeCtx)).parent = _
  rw [List.getD_eq_getElem?_getD, List.getElem?_append_left (by simpa using hi)]
  rw [← List.getD_eq_getElem?_getD]
  exact getD_parent_set_preserve E.arena (topIdx E) [] i

theorem getCtx_hb_new (E : EngineSt) (n k : Nat) (hk : k < n) :
    getCtx (handleBranches E n) (E.arena.length + k) =
      ⟨some (topIdx E), copyList (getCtx E (topIdx E)).values⟩ := by
  show ((E.arena.set (topIdx E) (⟨(getCtx E (topIdx E)).parent, []⟩ : ComputeCtx) ++
      List.replicate n
        (⟨some (topIdx E), copyList (getCtx E (topIdx E)).values⟩ : ComputeCtx)).getD
        (E.arena.length + k) (⟨none, []⟩ : ComputeCtx)) = _
  rw [List.getD_eq_getElem?_getD, List.getElem?_append_right (by simp)]
  simp [List.getElem?_replicate, hk]

theorem hb_stack (E : EngineSt) (n : Nat) :
    (handleBranches E n).stack =
      (List.range n).map (fun k => E.arena.length + k) ++ E.stack := rfl

theorem EngineInv_hb (hd tl : List Instr) (rest : List (List Instr))
    (ps : List (List Instr)) (E : EngineSt) (hInv : EngineInv (hd :: rest) E) :
    EngineInv (ps ++ (tl :: rest)) (handleBranches E ps.length) := by
  obtain ⟨hlen, hvalid, l, r, hstack, hroot, hl⟩ := hInv
  have hsne : E.stack ≠ [] := by
    rw [hstack]
    simp
  have htopmem : topIdx E ∈ E.stack := topIdx_mem E hsne
  have htoplt : topIdx E < E.arena.length := hvalid _ htopmem
  have hrmem : r ∈ E.stack := by
    rw [hstack]
    simp
  have hrlt : r < E.arena.length := hvalid r hrmem
  refine ⟨?_, ?_, (List.range ps.length).map (fun k => E.arena.length + k) ++ l, r,
    ?_, ?_, ?_⟩
  · rw [hb_stack]
    simp only [List.length_append, List.length_map, List.length_range, List.length_cons]
    simp only [List.length_cons] at hlen
    omega
  · intro i hi
    rw [hb_stack] at hi
    rw [hb_arena_len]
    rcases List.mem_append.mp hi with hnew | hold
    · obtain ⟨k, hk, hik⟩ := List.mem_map.mp hnew
      have : k < ps.length := List.mem_range.mp hk
      omega
    · have := hvalid i hold
      omega
  · rw [hb_stack, hstack, List.append_assoc]
  · rw [getCtx_parent_hb E ps.length r hrlt]
    exact hroot
  · intro i hi
    rcases List.mem_append.mp hi with hnew | hold
    · obtain ⟨k, hk, hik⟩ := List.mem_map.mp hnew
      have hklt : k < ps.length := List.mem_range.mp hk
      refine ⟨topIdx E, ?_, ?_⟩
      · rw [← hik, getCtx_hb_new E ps.length k hklt]
      · rw [hb_arena_len]
        omega
    · obtain ⟨j, hj1, hj2⟩ := hl i hold
      have hilt : i < E.arena.length := hvalid i (by rw [hstack]; exact List.mem_append_left _ hold)
      refine ⟨j, ?_, ?_⟩
      · rw [getCtx_parent_hb E ps.length i hilt]
        exact hj1
      · rw [hb_arena_len]
        omega

theorem EngineInv_fb (hd : List Instr) (rest : List (List Instr)) (E : EngineSt)
    (hInv : EngineInv (hd :: rest) E)
    (hnr : (getCtx E (topIdx E)).parent ≠ none) :
    EngineInv rest (finishBranch E) := by
  obtain ⟨hlen, hvalid, l, r, hstack, hroot, hl⟩ := hInv
  cases l with
  | nil =>
    exfalso
    have : topIdx E = r := by
      show E.stack.headD 0 = r
      rw [hstack]
      rfl
    rw [this] at hnr
    exact hnr hroot
  | cons i0 l' =>
    have htop : topIdx E = i0 := by
      show E.stack.headD 0 = i0
      rw [hstack]
      rfl
    obtain ⟨p, hp, hplen⟩ := hl i0 (List.mem_cons_self _ _)
    have hfb : finishBranch E =
        ⟨E.arena.set p ⟨(getCtx E p).parent,
          (getCtx E p).values ++ (getCtx E i0).values⟩, E.stack.tail⟩ := by
      have hstep : finishBranch E =
          match (getCtx E (topIdx E)).parent with
          | some q =>
            (⟨E.arena.set q ⟨(getCtx E q).parent,
              (getCtx E q).values ++ (getCtx E (topIdx E)).values⟩,
              E.stack.tail⟩ : EngineSt)
          | none => (⟨E.arena, E.stack.tail⟩ : EngineSt) := rfl
      rw [hstep, htop, hp]
    rw [hfb]
    have htail : E.stack.tail = l' ++ [r] := by
      rw [hstack]
      rfl
    have hparent : ∀ i : Nat,
        ((E.arena.set p ⟨(getCtx E p).parent,
          (getCtx E p).values ++ (getCtx E i0).values⟩).getD i
            ⟨none, []⟩).parent = (getCtx E i).parent := by
      intro i
      exact getD_parent_set_preserve E.arena p _ i
    refine ⟨?_, ?_, l', r, ?_, ?_, ?_⟩
    · show rest.length = E.stack.tail.length
      rw [htail]
      simp only [List.length_cons] at hlen
      rw [hstack] at hlen
      simp at hlen ⊢
      omega
    · intro i hi
      show i < (E.arena.set p _).length
      rw [List.length_set]
      apply hvalid
      rw [htail] at hi
      rw [hstack]
      rcases List.mem_append.mp hi with h1 | h2
      · exact List.mem_append_left _ (List.mem_cons_of_mem _ h1)
      · exact List.mem_append_right _ h2
    · exact htail
    · show ((E.arena.set p _).getD r ⟨none, []⟩).parent = none
      rw [hparent r]
      exact hroot
    · intro i hi
      obtain ⟨j, hj1, hj2⟩ := hl i (List.mem_cons_of_mem _ hi)
      refine ⟨j, ?_, ?_⟩
      · show ((E.arena.set p _).getD i ⟨none, []⟩).parent = some j
        rw [hparent i]
        exact hj1
      · show j < (E.arena.set p _).length
        rw [List.length_set]
        exact hj2

theorem noTPMProfiles_mem (ps : List (List Instr)) (h : noTPMProfiles ps = true) :
    ∀ q ∈ ps, noTPMLevel q = true := by
  induction ps with
  | nil => intro q hq; exact absurd hq (List.not_mem_nil q)
  | cons a tl ih =>
    have hsplit : noTPMLevel a = true ∧ noTPMProfiles tl = true := by
      simpa [noTPMProfiles, Bool.and_eq_true] using h
    intro q hq
    rcases List.mem_cons.mp hq with h1 | h2
    · rw [h1]; exact hsplit.1
    · exact ih hsplit.2 q h2

theorem noTPMLevel_split (i : Instr) (tl : List Instr) (h : noTPMLevel (i :: tl) = true) :
    noTPMInstr i = true ∧ noTPMLevel tl = true := by
  simpa [noTPMLevel, Bool.and_eq_true] using h

/-- Shape of one iterator-core output: an end marker with no new levels, a
non-branch instruction with one continuation level, or a non-empty branch
with its sub-profiles pushed in front of the continuation. -/
theorem iterNextCore_shape (hd : List Instr) :
    ((iterNextCore hd).1 = .endProfile ∧ (iterNextCore hd).2 = []) ∨
    (∃ i tl, (iterNextCore hd).1 = .instr i ∧ notBranch i = true ∧
      (iterNextCore hd).2 = [tl]) ∨
    (∃ ps tl, ps ≠ [] ∧ (iterNextCore hd).1 = .instr (.addProfileOR ps) ∧
      (iterNextCore hd).2 = ps ++ [tl]) := by
  induction hd with
  | nil => exact Or.inl ⟨rfl, rfl⟩
  | cons i tl ih =>
    cases i with
    | addPCRValue alg pcr value =>
      exact Or.inr (Or.inl ⟨.addPCRValue alg pcr value, tl, rfl, rfl, rfl⟩)
    | addPCRValueFromTPM alg pcr =>
      exact Or.inr (Or.inl ⟨.addPCRValueFromTPM alg pcr, tl, rfl, rfl, rfl⟩)
    | extendPCR alg pcr value =>
      exact Or.inr (Or.inl ⟨.extendPCR alg pcr value, tl, rfl, rfl, rfl⟩)
    | addProfileOR ps =>
      by_cases hps : ps = []
      · subst hps
        rw [iterNextCore_emptyOR]
        exact ih
      · have hne : ps.isEmpty = false := by
          simpa [List.isEmpty_iff] using hps
        refine Or.inr (Or.inr ⟨ps, tl, hps, ?_, ?_⟩)
        · simp [iterNextCore, hne]
        · simp [iterNextCore, hne]

/-- Iterating over a TPM-free level never produces an `addPCRValueFromTPM`
output, and all pushed levels are themselves TPM-free. -/
theorem iterNextCore_noTPM (hd : List Instr) (h : noTPMLevel hd = true) :
    (∀ i : Instr, (iterNextCore hd).1 = .instr i → noTPMInstr i = true) ∧
    ∀ m ∈ (iterNextCore hd).2, noTPMLevel m = true := by
  induction hd with
  | nil =>
    constructor
    · intro i hi
      exact IterOut.noConfusion hi
    · intro m hm
      exact absurd hm (List.not_mem_nil m)
  | cons i tl ih =>
    obtain ⟨hi, htl⟩ := noTPMLevel_split i tl h
    cases i with
    | addPCRValue alg pcr value =>
      refine ⟨?_, ?_⟩
      · intro j hj
        have : j = Instr.addPCRValue alg pcr value := by
          have h2 := hj
          simp only [iterNextCore] at h2
          injection h2 with h3
          exact h3.symm
        rw [this]
        rfl
      · intro m hm
        have : m = tl := by
          simpa [iterNextCore] using hm
        rw [this]
        exact htl
    | addPCRValueFromTPM alg pcr => simp [noTPMInstr] at hi
    | extendPCR alg pcr value =>
      refine ⟨?_, ?_⟩
      · intro j hj
        have : j = Instr.extendPCR alg pcr value := by
          have h2 := hj
          simp only [iterNextCore] at h2
          injection h2 with h3
          exact h3.symm
        rw [this]
        rfl
      · intro m hm
        have : m = tl := by
          simpa [iterNextCore] using hm
        rw [this]
        exact htl
    | addProfileOR ps =>
      by_cases hps : ps = []
      · subst hps
        rw [iterNextCore_emptyOR]
        exact ih htl
      · have hne : ps.isEmpty = false := by
          simpa [List.isEmpty_iff] using hps
        have hout : (iterNextCore (Instr.addProfileOR ps :: tl)).1 =
            .instr (.addProfileOR ps) := by
          simp [iterNextCore, hne]
        have hmids : (iterNextCore (Instr.addProfileOR ps :: tl)).2 = ps ++ [tl] := by
          simp [iterNextCore, hne]
        refine ⟨?_, ?_⟩
        · intro j hj
          rw [hout] at hj
          have : j = Instr.addProfileOR ps := by
            injection hj with h3
            exact h3.symm
          rw [this]
          show noTPMInstr (Instr.addProfileOR ps) = true
          simpa [noTPMInstr] using hi
        · intro m hm
          rw [hmids] at hm
          rcases List.mem_append.mp hm with h1 | h2
          · have hp : noTPMProfiles ps = true := by
              simpa [noTPMInstr] using hi
            exact noTPMProfiles_mem ps hp m h1
          · have : m = tl := by simpa using h2
            rw [this]
            exact htl

/-- With no `addPCRValueFromTPM` instruction anywhere in the remaining
levels, evaluation without a TPM context always completes with a value
list. -/
theorem run_noTPM_ok (hm : HashModel) :
    ∀ (fuel : Nat) (St : List (List Instr)) (E : EngineSt),
    levelsMeasure St < fuel →
    (∀ lev ∈ St, noTPMLevel lev = true) →
    EngineInv St E →
    ∃ vs, run hm none fuel St E = .ok vs := by
  intro fuel
  induction fuel with
  | zero =>
    intro St E h _ _
    omega
  | succ f ih =>
    intro St E hmeas hTPM hInv
    cases St with
    | nil =>
      exfalso
      obtain ⟨hlen, _, l, r, hstack, _, _⟩ := hInv
      rw [hstack] at hlen
      simp at hlen
    | cons hd rest =>
      have hiter : iterNext (hd :: rest) =
          some ((iterNextCore hd).1, (iterNextCore hd).2 ++ rest) := rfl
      rw [run_succ_eq2, hiter]
      dsimp only
      have hmeas' : levelsMeasure ((iterNextCore hd).2 ++ rest) < f := by
        have := iterNext_measure (hd :: rest) _ _ hiter
        omega
      have hTPMhd : noTPMLevel hd = true := hTPM hd (List.mem_cons_self _ _)
      have hTPMrest : ∀ lev ∈ rest, noTPMLevel lev = true :=
        fun lev hl => hTPM lev (List.mem_cons_of_mem _ hl)
      obtain ⟨hcoreOut, hcoreMids⟩ := iterNextCore_noTPM hd hTPMhd
      have hTPM' : ∀ lev ∈ (iterNextCore hd).2 ++ rest, noTPMLevel lev = true := by
        intro lev hl
        rcases List.mem_append.mp hl with h1 | h2
        · exact hcoreMids lev h1
        · exact hTPMrest lev h2
      rcases iterNextCore_shape hd with ⟨ho, hmids⟩ | ⟨i, tl, ho, hnb, hmids⟩ |
        ⟨ps, tl, hne, ho, hmids⟩
      · rw [ho]
        simp only [runStep]
        by_cases hr : (getCtx E (topIdx E)).parent = none
        · rw [if_pos hr]
          exact ⟨_, rfl⟩
        · rw [if_neg hr]
          apply ih
          · exact hmeas'
          · exact hTPM'
          · rw [hmids, List.nil_append] at hmeas' hTPM' ⊢
            exact EngineInv_fb hd rest E hInv hr
      · rw [ho]
        have hTPMi : noTPMInstr i = true := hcoreOut i ho
        cases i with
        | addPCRValue alg pcr value =>
          simp only [runStep]
          apply ih
          · exact hmeas'
          · exact hTPM'
          · rw [hmids]
            show EngineInv ([tl] ++ rest) _
            rw [List.cons_append, List.nil_append]
            exact EngineInv_upd hd tl rest E _ hInv
        | addPCRValueFromTPM alg pcr => simp [noTPMInstr] at hTPMi
        | extendPCR alg pcr value =>
          simp only [runStep]
          apply ih
          · exact hmeas'
          · exact hTPM'
          · rw [hmids]
            show EngineInv ([tl] ++ rest) _
            rw [List.cons_append, List.nil_append]
            exact EngineInv_upd hd tl rest E _ hInv
        | addProfileOR ps => simp [notBranch] at hnb
      · rw [ho]
        simp only [runStep]
        apply ih
        · exact hmeas'
        · exact hTPM'
        · rw [hmids]
          have hassoc : (ps ++ [tl]) ++ rest = ps ++ (tl :: rest) := by
            simp
          rw [hassoc]
          exact EngineInv_hb hd tl rest ps E hInv

/-- A profile containing no `addPCRValueFromTPM` anywhere evaluates
successfully with no TPM context. -/
theorem computeValues_noTPM (hm : HashModel) (p : List Instr)
    (hp : noTPMLevel p = true) :
    ∃ vs, ComputePCRValues hm none p = .ok vs := by
  unfold ComputePCRValues
  apply run_noTPM_ok hm (levelSize p + 2) [p] initEngineSt
  · simp [levelsMeasure]
  · intro lev hl
    have : lev = p := by simpa using hl
    rw [this]
    exact hp
  · refine ⟨rfl, ?_, [], 0, rfl, rfl, ?_⟩
    · intro i hi
      have : i = 0 := by simpa [initEngineSt] using hi
      rw [this]
      show 0 < 1
      omega
    · intro i hi
      exact absurd hi (List.not_mem_nil i)

/-! ### Digest finalizer lemmas -/

theorem computeDigestsLoop_ok (hm : HashModel) (alg : Alg) (pcrs : List PCRKey) :
    ∀ (l : List PCRVals) (ds : List Digest),
    computeDigestsLoop hm alg pcrs l = .ok ds →
    (∀ v ∈ l, selectionOf v = pcrs) ∧ ds = l.map (compositeDigest hm alg) := by
  intro l
  induction l with
  | nil =>
    intro ds h
    simp only [computeDigestsLoop] at h
    cases h
    exact ⟨fun v hv => absurd hv (List.not_mem_nil v), rfl⟩
  | cons v rest ih =>
    intro ds h
    simp only [computeDigestsLoop] at h
    by_cases hsel : selectionOf v = pcrs
    · rw [if_pos hsel] at h
      cases hrec : computeDigestsLoop hm alg pcrs rest with
      | ok ds' =>
        rw [hrec] at h
        cases h
        obtain ⟨h1, h2⟩ := ih ds' hrec
        refine ⟨?_, ?_⟩
        · intro u hu
          rcases List.mem_cons.mp hu with hh | ht
          · rw [hh]; exact hsel
          · exact h1 u ht
        · rw [List.map_cons, h2]
      | error e =>
        rw [hrec] at h
        exact Except.noConfusion h
    · rw [if_neg hsel] at h
      exact Except.noConfusion h

theorem computeDigestsLoop_all_ok (hm : HashModel) (alg : Alg) (pcrs : List PCRKey) :
    ∀ (l : List PCRVals),
    (∀ v ∈ l, selectionOf v = pcrs) →
    computeDigestsLoop hm alg pcrs l = .ok (l.map (compositeDigest hm alg)) := by
  intro l
  induction l with
  | nil => intro _; rfl
  | cons v rest ih =>
    intro h
    have hv : selectionOf v = pcrs := h v (List.mem_cons_self _ _)
    have hrest : ∀ u ∈ rest, selectionOf u = pcrs :=
      fun u hu => h u (List.mem_cons_of_mem _ hu)
    simp only [computeDigestsLoop, if_pos hv, ih hrest, List.map_cons]

theorem computeDigestsLoop_err (hm : HashModel) (alg : Alg) (pcrs : List PCRKey) :
    ∀ (l : List PCRVals),
    (∃ v ∈ l, selectionOf v ≠ pcrs) →
    computeDigestsLoop hm alg pcrs l = .error inconsistentPCRsMsg := by
  intro l
  induction l with
  | nil =>
    intro h
    obtain ⟨v, hv, _⟩ := h
    exact absurd hv (List.not_mem_nil v)
  | cons v rest ih =>
    intro h
    by_cases hv : selectionOf v = pcrs
    · have hrest : ∃ u ∈ rest, selectionOf u ≠ pcrs := by
        obtain ⟨u, hu, hne⟩ := h
        rcases List.mem_cons.mp hu with hh | ht
        · rw [hh] at hne
          exact absurd hv hne
        · exact ⟨u, ht, hne⟩
      simp only [computeDigestsLoop, if_pos hv, ih hrest]
    · simp only [computeDigestsLoop, if_neg hv]

theorem dedupAux_eq (l : List Digest) :
    ∀ acc : List Digest,
    dedupAux acc l =
      acc ++ dedupFirstOcc (l.filter (fun d => !acc.any (fun f => decide (d = f)))) := by
  induction l with
  | nil =>
    intro acc
    simp [dedupAux, dedupFirstOcc]
  | cons d rest ih =>
    intro acc
    by_cases hmem : acc.any (fun f => decide (d = f)) = true
    · have h1 : dedupAux acc (d :: rest) = dedupAux acc rest := by
        simp only [dedupAux, if_pos hmem]
      have h2 : (d :: rest).filter (fun x => !acc.any (fun f => decide (x = f))) =
          rest.filter (fun x => !acc.any (fun f => decide (x = f))) := by
        simp only [List.filter_cons, hmem]
        simp
      rw [h1, h2, ih acc]
    · have hmem' : acc.any (fun f => decide (d = f)) = false :=
        Bool.eq_false_iff.mpr hmem
      have h1 : dedupAux acc (d :: rest) = dedupAux (acc ++ [d]) rest := by
        simp only [dedupAux, hmem']
        simp
      have h2 : (d :: rest).filter (fun x => !acc.any (fun f => decide (x = f))) =
          d :: rest.filter (fun x => !acc.any (fun f => decide (x = f))) := by
        simp only [List.filter_cons, hmem']
        simp
      rw [h1, h2, ih (acc ++ [d])]
      simp only [dedupFirstOcc]
      rw [List.filter_filter]
      have hpred : ∀ x : Digest,
          ((!decide (x = d)) && !acc.any (fun f => decide (x = f))) =
            (!(acc ++ [d]).any (fun f => decide (x = f))) := by
        intro x
        simp only [List.any_append, List.any_cons, List.any_nil, Bool.or_false,
          Bool.not_or]
        rw [Bool.and_comm]
      have hfc : rest.filter
            (fun x => (!decide (x = d)) && !acc.any (fun f => decide (x = f))) =
          rest.filter (fun x => !(acc ++ [d]).any (fun f => decide (x = f))) :=
        List.filter_congr (fun x _ => hpred x)
      rw [hfc]
      simp

theorem dedupAux_nil (l : List Digest) : dedupAux [] l = dedupFirstOcc l := by
  rw [dedupAux_eq l []]
  have : l.filter (fun d => !([] : List Digest).any (fun f => decide (d = f))) = l := by
    simp
  rw [this]
  simp

theorem applySeqAll_get (hm : HashModel) (tpm : Option TPMReader) (v0 : PCRVals) :
    ∀ (subs : List (List Instr)) (rs : List PCRVals),
    applySeqAll hm tpm v0 subs = .ok rs →
    rs.length = subs.length ∧
    ∀ (i : Nat) (s : List Instr), subs[i]? = some s →
      ∃ r, applySeq hm tpm v0 s = .ok r ∧ rs[i]? = some r := by
  intro subs
  induction subs with
  | nil =>
    intro rs h
    simp only [applySeqAll] at h
    cases h
    refine ⟨rfl, ?_⟩
    intro i s hs
    simp at hs
  | cons s0 rest ih =>
    intro rs h
    simp only [applySeqAll] at h
    cases h0 : applySeq hm tpm v0 s0 with
    | error e =>
      rw [h0] at h
      exact Except.noConfusion h
    | ok r0 =>
      rw [h0] at h
      cases hrest : applySeqAll hm tpm v0 rest with
      | error e =>
        rw [hrest] at h
        exact Except.noConfusion h
      | ok rs' =>
        rw [hrest] at h
        cases h
        obtain ⟨hlen, hidx⟩ := ih rs' hrest
        refine ⟨by simp [hlen], ?_⟩
        intro i s hs
        cases i with
        | zero =>
          simp only [List.getElem?_cons_zero, Option.some_inj] at hs
          exact ⟨r0, by rw [← hs]; exact h0, by simp⟩
        | succ n =>
          simp only [List.getElem?_cons_succ] at hs ⊢
          exact hidx n s hs

/-! ### The claims -/

/-- C1: for a profile whose instruction sequence is a straight-line prefix
followed by a Branch (`AddProfileOR`) with `N ≥ 1` simple sub-profiles,
`ComputePCRValues` returns exactly `N` PCR value sets, in the order the
sub-profiles were passed, each consisting of the parent's values as set
before the branch with that sub-profile's own instructions applied on
top. -/
theorem claim_C1 (hm : HashModel) (tpm : Option TPMReader) (pre : List Instr)
    (subs : List (List Instr)) (v0 : PCRVals) (rs : List PCRVals)
    (hpre : noBranches pre = true) (hne : subs ≠ [])
    (hsubs : ∀ s ∈ subs, noBranches s = true)
    (hv0 : applySeq hm tpm [] pre = .ok v0)
    (hrs : applySeqAll hm tpm v0 subs = .ok rs) :
    ComputePCRValues hm tpm (pre ++ [.addProfileOR subs]) = .ok rs ∧
      rs.length = subs.length ∧
      ∀ (i : Nat) (s : List Instr), subs[i]? = some s →
        ∃ r, applySeq hm tpm v0 s = .ok r ∧ rs[i]? = some r := by
  obtain ⟨hlen, hidx⟩ := applySeqAll_get hm tpm v0 subs rs hrs
  refine ⟨?_, hlen, hidx⟩
  rw [computeValues_branch hm tpm pre subs v0 hpre hne hsubs hv0, hrs]

theorem claim_C1_witness :
    noBranches [Instr.addPCRValue 0 7 [3]] = true ∧
    ([[Instr.addPCRValue 0 12 [4]], [Instr.addPCRValue 0 12 [5]]] :
      List (List Instr)) ≠ [] ∧
    ComputePCRValues hmTest none
        [.addPCRValue 0 7 [3],
         .addProfileOR [[.addPCRValue 0 12 [4]], [.addPCRValue 0 12 [5]]]] =
      .ok [[((0, 7), [3]), ((0, 12), [4])], [((0, 7), [3]), ((0, 12), [5])]] := by
  refine ⟨by decide, by simp, ?_⟩
  have h := claim_C1 hmTest none [.addPCRValue 0 7 [3]]
    [[.addPCRValue 0 12 [4]], [.addPCRValue 0 12 [5]]]
    [((0, 7), [3])]
    [[((0, 7), [3]), ((0, 12), [4])], [((0, 7), [3]), ((0, 12), [5])]]
    (by decide) (by simp) (by decide) (by rfl) (by rfl)
  exact h.1

/-- C2: for a profile with no Branch instruction, `ComputePCRValues` returns
exactly one PCR value set, equal to the sequential application of the
instructions in declaration order (a later `addPCRValue` on the same key
replaces the value, a later `extendPCR` extends it), and propagates any
measurement-source error. -/
theorem claim_C2 (hm : HashModel) (tpm : Option TPMReader) (p : List Instr)
    (hp : noBranches p = true) :
    ComputePCRValues hm tpm p =
      match applySeq hm tpm [] p with
      | .ok v => .ok [v]
      | .error e => .err e :=
  computeValues_simple hm tpm p hp

theorem claim_C2_witness :
    noBranches [Instr.addPCRValue 0 7 [3], Instr.extendPCR 0 7 [4],
      Instr.addPCRValue 0 8 [5]] = true ∧
    ComputePCRValues hmTest none
        [.addPCRValue 0 7 [3], .extendPCR 0 7 [4], .addPCRValue 0 8 [5]] =
      .ok [[((0, 7), [16]), ((0, 8), [5])]] := by
  refine ⟨by decide, ?_⟩
  rw [claim_C2 hmTest none _ (by decide)]
  decide

/-- C3: no aliasing across branches - under the C1 profile shape, the `i`-th
returned value set depends only on the prefix and the `i`-th sub-profile:
replacing the sibling sub-profiles by any others (keeping index `i` fixed)
leaves the `i`-th result unchanged, and the parent context's own list is
cleared at the branch (its paths live on only in the children). -/
theorem claim_C3 (hm : HashModel) (tpm : Option TPMReader) (pre : List Instr)
    (subs subs' : List (List Instr)) (v0 : PCRVals) (rs rs' : List PCRVals) (i : Nat)
    (hpre : noBranches pre = true)
    (hne : subs ≠ []) (hne' : subs' ≠ [])
    (hsubs : ∀ s ∈ subs, noBranches s = true)
    (hsubs' : ∀ s ∈ subs', noBranches s = true)
    (hv0 : applySeq hm tpm [] pre = .ok v0)
    (hres : ComputePCRValues hm tpm (pre ++ [.addProfileOR subs]) = .ok rs)
    (hres' : ComputePCRValues hm tpm (pre ++ [.addProfileOR subs']) = .ok rs')
    (heq : subs[i]? = subs'[i]?) :
    rs[i]? = rs'[i]? := by
  have hb := computeValues_branch hm tpm pre subs v0 hpre hne hsubs hv0
  have hb' := computeValues_branch hm tpm pre subs' v0 hpre hne' hsubs' hv0
  rw [hres] at hb
  rw [hres'] at hb'
  cases happ : applySeqAll hm tpm v0 subs with
  | error e =>
    rw [happ] at hb
    exact CVResult.noConfusion hb
  | ok rs0 =>
    rw [happ] at hb
    cases happ' : applySeqAll hm tpm v0 subs' with
    | error e =>
      rw [happ'] at hb'
      exact CVResult.noConfusion hb'
    | ok rs0' =>
      rw [happ'] at hb'
      have hrs : rs = rs0 := by
        cases hb
        rfl
      have hrs' : rs' = rs0' := by
        cases hb'
        rfl
      subst hrs
      subst hrs'
      obtain ⟨hlen, hidx⟩ := applySeqAll_get hm tpm v0 subs _ happ
      obtain ⟨hlen', hidx'⟩ := applySeqAll_get hm tpm v0 subs' _ happ'
      cases hs : subs[i]? with
      | none =>
        have hge : subs.length ≤ i := by
          by_contra hlt
          push_neg at hlt
          rw [List.getElem?_eq_getElem hlt] at hs
          exact Option.noConfusion hs
        have hge' : subs'.length ≤ i := by
          by_contra hlt
          push_neg at hlt
          rw [hs, List.getElem?_eq_getElem hlt] at heq
          exact Option.noConfusion heq.symm
        rw [List.getElem?_eq_none (by omega), List.getElem?_eq_none (by omega)]
      | some s =>
        obtain ⟨r, hr, hri⟩ := hidx i s hs
        obtain ⟨r', hr', hri'⟩ := hidx' i s (by rw [← heq]; exact hs)
        have : r = r' := by
          rw [hr] at hr'
          cases hr'
          rfl
        rw [hri, hri', this]

theorem claim_C3_witness :
    ComputePCRValues hmTest none
        [.addPCRValue 0 7 [3],
         .addProfileOR [[.addPCRValue 0 12 [4]], [.addPCRValue 0 12 [5]]]] =
      .ok [[((0, 7), [3]), ((0, 12), [4])], [((0, 7), [3]), ((0, 12), [5])]] ∧
    ComputePCRValues hmTest none
        [.addPCRValue 0 7 [3],
         .addProfileOR [[.addPCRValue 0 12 [4]], [.extendPCR 0 12 [6]]]] =
      .ok [[((0, 7), [3]), ((0, 12), [4])], [((0, 7), [3]), ((0, 12), [15])]] ∧
    ([[((0, 7), [3]), ((0, 12), [4])], [((0, 7), [3]), ((0, 12), [5])]] :
        List PCRVals)[0]? =
      ([[((0, 7), [3]), ((0, 12), [4])], [((0, 7), [3]), ((0, 12), [15])]] :
        List PCRVals)[0]? := by
  refine ⟨by decide, by decide, ?_⟩
  exact claim_C3 hmTest none [.addPCRValue 0 7 [3]]
    [[.addPCRValue 0 12 [4]], [.addPCRValue 0 12 [5]]]
    [[.addPCRValue 0 12 [4]], [.extendPCR 0 12 [6]]]
    [((0, 7), [3])] _ _ 0
    (by decide) (by simp) (by simp) (by decide) (by decide) (by rfl)
    (by decide) (by decide) rfl

/-- C4 counterexample: when the outermost (root) level runs out of
instructions, `next` pops it and DOES return an end-of-branch marker,
contradicting the claim that no marker is returned at the root level. -/
theorem claim_C4_counterexample :
    iterNext [([] : List Instr)] = some (.endProfile, []) := rfl

/-- C4 (amended): when any level runs out of instructions - the outermost
included - `next` pops it and returns the end-of-branch marker; the
evaluation engine, on consuming a marker, detects root completion by context
identity (the current context having no parent) and stops, as the empty
profile evaluating to one empty value set shows. -/
theorem claim_C4_amended :
    (∀ rest : List (List Instr),
      iterNext (([] : List Instr) :: rest) = some (.endProfile, rest)) ∧
    ∀ (hm : HashModel) (tpm : Option TPMReader),
      ComputePCRValues hm tpm [] = .ok [[]] := by
  refine ⟨fun rest => rfl, ?_⟩
  intro hm tpm
  rw [computeValues_simple hm tpm [] rfl]
  rfl

/-- C5: a Branch instruction with zero sub-profiles is skipped entirely:
`next` never returns it (it behaves as if absent from its level), and
`ComputePCRValues` gives the same result as for the identical profile with
the instruction removed. -/
theorem claim_C5 :
    (∀ (tl : List Instr) (rest : List (List Instr)),
      iterNext ((Instr.addProfileOR [] :: tl) :: rest) = iterNext (tl :: rest)) ∧
    ∀ (hm : HashModel) (tpm : Option TPMReader) (a b : List Instr),
      ComputePCRValues hm tpm (a ++ .addProfileOR [] :: b) =
        ComputePCRValues hm tpm (a ++ b) := by
  refine ⟨fun tl rest => rfl, ?_⟩
  intro hm tpm a b
  exact computeValues_skip hm tpm a b

/-- C6: `ComputePCRDigests` derives the canonical PCR selection from the
first PCR value set, fails with the distinct inconsistent-coverage error
whenever some path's selection differs from the canonical one, and on
success every path's selection equals the canonical one. -/
theorem claim_C6 (hm : HashModel) (tpm : Option TPMReader) (p : List Instr) (alg : Alg)
    (vs : List PCRVals) (hvs : ComputePCRValues hm tpm p = .ok vs) :
    (∀ (sel : List PCRKey) (ds : List Digest),
      ComputePCRDigests hm tpm p alg = .ok sel ds →
      sel = selectionOf (vs.headD []) ∧ ∀ v ∈ vs, selectionOf v = sel) ∧
    ((∃ v ∈ vs, selectionOf v ≠ selectionOf (vs.headD [])) →
      ComputePCRDigests hm tpm p alg = .err inconsistentPCRsMsg) := by
  cases vs with
  | nil =>
    constructor
    · intro sel ds h
      unfold ComputePCRDigests at h
      rw [hvs] at h
      exact CDResult.noConfusion h
    · intro hex
      obtain ⟨v, hv, _⟩ := hex
      exact absurd hv (List.not_mem_nil v)
  | cons v0 rest =>
    have hD : ComputePCRDigests hm tpm p alg =
        match computeDigestsLoop hm alg (selectionOf v0) (v0 :: rest) with
        | .ok ds => .ok (selectionOf v0) (dedupAux [] ds)
        | .error e => .err e := by
      unfold ComputePCRDigests
      rw [hvs]
    constructor
    · intro sel ds h
      rw [hD] at h
      cases hloop : computeDigestsLoop hm alg (selectionOf v0) (v0 :: rest) with
      | ok ds' =>
        rw [hloop] at h
        obtain ⟨hall, _⟩ := computeDigestsLoop_ok hm alg _ _ _ hloop
        have hsel : sel = selectionOf v0 := by
          cases h
          rfl
        refine ⟨?_, ?_⟩
        · rw [hsel]
          rfl
        · intro v hv
          rw [hsel]
          exact hall v hv
      | error e =>
        rw [hloop] at h
        exact CDResult.noConfusion h
    · intro hex
      rw [hD]
      have hex' : ∃ v ∈ v0 :: rest, selectionOf v ≠ selectionOf v0 := by
        obtain ⟨v, hv, hne⟩ := hex
        exact ⟨v, hv, hne⟩
      rw [computeDigestsLoop_err hm alg _ _ hex']

theorem claim_C6_witness :
    ComputePCRValues hmTest none
        [.addProfileOR [[.addPCRValue 0 0 [1]], [.addPCRValue 0 1 [1]]]] =
      .ok [[((0, 0), [1])], [((0, 1), [1])]] ∧
    ComputePCRDigests hmTest none
        [.addProfileOR [[.addPCRValue 0 0 [1]], [.addPCRValue 0 1 [1]]]] 0 =
      .err inconsistentPCRsMsg := by
  refine ⟨by decide, ?_⟩
  exact (claim_C6 hmTest none
    [.addProfileOR [[.addPCRValue 0 0 [1]], [.addPCRValue 0 1 [1]]]] 0
    [[((0, 0), [1])], [((0, 1), [1])]] (by decide)).2 (by decide)

/-- C7: on success the digest list returned by `ComputePCRDigests` is the
list of composite digests of all paths deduplicated by exact byte equality
with first-occurrence order preserved. -/
theorem claim_C7 (hm : HashModel) (tpm : Option TPMReader) (p : List Instr) (alg : Alg)
    (vs : List PCRVals) (sel : List PCRKey) (ds : List Digest)
    (hvs : ComputePCRValues hm tpm p = .ok vs)
    (hds : ComputePCRDigests hm tpm p alg = .ok sel ds) :
    ds = dedupFirstOcc (vs.map (compositeDigest hm alg)) := by
  cases vs with
  | nil =>
    unfold ComputePCRDigests at hds
    rw [hvs] at hds
    exact CDResult.noConfusion hds
  | cons v0 rest =>
    have hD : ComputePCRDigests hm tpm p alg =
        match computeDigestsLoop hm alg (selectionOf v0) (v0 :: rest) with
        | .ok ds0 => .ok (selectionOf v0) (dedupAux [] ds0)
        | .error e => .err e := by
      unfold ComputePCRDigests
      rw [hvs]
    rw [hD] at hds
    cases hloop : computeDigestsLoop hm alg (selectionOf v0) (v0 :: rest) with
    | ok ds' =>
      rw [hloop] at hds
      obtain ⟨_, hmap⟩ := computeDigestsLoop_ok hm alg _ _ _ hloop
      have hd : ds = dedupAux [] ds' := by
        cases hds
        rfl
      rw [hd, dedupAux_nil, hmap]
    | error e =>
      rw [hloop] at hds
      exact CDResult.noConfusion hds

theorem claim_C7_witness :
    ComputePCRValues hmTest none
        [.addProfileOR [[.addPCRValue 0 0 [5]], [.addPCRValue 0 0 [5]]]] =
      .ok [[((0, 0), [5])], [((0, 0), [5])]] ∧
    ComputePCRDigests hmTest none
        [.addProfileOR [[.addPCRValue 0 0 [5]], [.addPCRValue 0 0 [5]]]] 0 =
      .ok [(0, 0)] [[13]] ∧
    ([[13]] : List Digest) = dedupFirstOcc
      (([[((0, 0), [5])], [((0, 0), [5])]] : List PCRVals).map
        (compositeDigest hmTest 0)) := by
  refine ⟨by decide, by decide, ?_⟩
  exact claim_C7 hmTest none
    [.addProfileOR [[.addPCRValue 0 0 [5]], [.addPCRValue 0 0 [5]]]] 0
    [[((0, 0), [5])], [((0, 0), [5])]] [(0, 0)] [[13]] (by decide) (by decide)

/-- C8: extending a PCR that has no prior entry equals setting it to the
hash of the all-zero value of the algorithm's output length concatenated
with the supplied value. -/
theorem claim_C8 (hm : HashModel) (tpm : Option TPMReader) (v : PCRVals) (alg : Alg)
    (pcr : Nat) (value : Digest) (hlen : value.length = hm.size alg)
    (h : lookupEntry v alg pcr = none) :
    applyInstr hm tpm v (.extendPCR alg pcr value) =
      applyInstr hm tpm v
        (.addPCRValue alg pcr (hm.hash alg (List.replicate (hm.size alg) 0 ++ value))) := by
  simp only [applyInstr]
  unfold extendEntry
  rw [h]

theorem claim_C8_witness :
    ([9] : Digest).length = hmTest.size 0 ∧
    lookupEntry [((0, 1), [2])] 0 0 = none ∧
    applyInstr hmTest none [((0, 1), [2])] (.extendPCR 0 0 [9]) =
      applyInstr hmTest none [((0, 1), [2])]
        (.addPCRValue 0 0 (hmTest.hash 0 (List.replicate (hmTest.size 0) 0 ++ [9]))) :=
  ⟨by decide, by decide,
    claim_C8 hmTest none [((0, 1), [2])] 0 0 [9] (by decide) (by decide)⟩

/-- C9: when evaluation reaches an `addPCRValueFromTPM` instruction and the
measurement source is absent, or present but its read fails,
`ComputePCRValues` returns an error and no value list. -/
theorem claim_C9 (hm : HashModel) (a b : List Instr) (alg : Alg) (pcr : Nat)
    (ha : ∀ i ∈ a, isLocalInstr i = true) :
    ComputePCRValues hm none (a ++ .addPCRValueFromTPM alg pcr :: b) =
        .err (noTPMContextMsg alg pcr) ∧
      ∀ t : TPMReader, t alg pcr = none →
        ComputePCRValues hm (some t) (a ++ .addPCRValueFromTPM alg pcr :: b) =
          .err (pcrReadErrMsg alg pcr) :=
  computeValues_tpm_err hm a b alg pcr ha

theorem claim_C9_witness :
    (∀ i ∈ [Instr.addPCRValue 0 7 [1]], isLocalInstr i = true) ∧
    ComputePCRValues hmTest none
        ([.addPCRValue 0 7 [1]] ++ .addPCRValueFromTPM 0 5 :: [.addPCRValue 0 8 [2]]) =
      .err (noTPMContextMsg 0 5) :=
  ⟨by decide,
    (claim_C9 hmTest [.addPCRValue 0 7 [1]] [.addPCRValue 0 8 [2]] 0 5 (by decide)).1⟩

/-- C10: a profile with no `addPCRValueFromTPM` instruction anywhere
(including inside branch sub-profiles) evaluates successfully even when the
TPM context is absent: the measurement source is only consulted when a
`addPCRValueFromTPM` instruction is actually processed. -/
theorem claim_C10 (hm : HashModel) (p : List Instr) (hp : noTPMLevel p = true) :
    ∃ vs, ComputePCRValues hm none p = .ok vs :=
  computeValues_noTPM hm p hp

theorem claim_C10_witness :
    noTPMLevel [Instr.addPCRValue 0 7 [3],
      Instr.addProfileOR [[Instr.addPCRValue 0 12 [4]], [Instr.extendPCR 0 12 [5]]]] =
        true ∧
    ∃ vs, ComputePCRValues hmTest none
      [.addPCRValue 0 7 [3],
       .addProfileOR [[.addPCRValue 0 12 [4]], [.extendPCR 0 12 [5]]]] = .ok vs :=
  ⟨by decide,
    claim_C10 hmTest
      [.addPCRValue 0 7 [3],
       .addProfileOR [[.addPCRValue 0 12 [4]], [.extendPCR 0 12 [5]]]] (by decide)⟩
